import Mathlib

/-!
Verification development for the DevLog Analyzer ingestion pipeline
(src/ingest.py).  The definitions below are a shallow embedding of the
functions of that file: the line splitting and numeric coercion used by
the parsing loop of ingest_full (lines 158-195), the TAG_RE keyword
tagger used by flush (lines 26-35 and 131-134), the per-commit flush and
its SQL effects (UPSERT_COMMIT, DELETE_FILES_FOR_COMMIT, INSERT_FILE_ROW,
lines 44-68 and 127-156), the single end-of-run transaction commit
(line 196), and the exit behaviour of main (lines 207-219).
-/

/-! ## String utilities mirroring the Python primitives -/

/-- Python raw.rstrip(setting of a newline): removes every trailing
newline character, as in line 159 of ingest.py. -/
def rstripNewlines (s : String) : String :=
  String.mk ((s.data.reverse.dropWhile (fun c => c = '\n')).reverse)

/-- Helper for Python str.split with a tab separator and a maxsplit bound:
the first argument counts the splits still allowed; once it reaches 0 the
remainder (tabs included) becomes the final field. -/
def splitTabAux : Nat → List Char → List Char → List (List Char)
  | _, acc, [] => [acc.reverse]
  | 0, acc, c :: cs => [acc.reverse ++ (c :: cs)]
  | k + 1, acc, c :: cs =>
    if c = '\t' then acc.reverse :: splitTabAux k [] cs
    else splitTabAux (k + 1) (c :: acc) cs

/-- Python line.split(tab, 4) as used in line 162 of ingest.py: at most
five parts, the fifth absorbing any further tabs. -/
def splitTab4 (s : String) : List String :=
  (splitTabAux 4 [] s.data).map (fun cs => String.mk cs)

/-- Helper for an unbounded tab split. -/
def splitAllAux : List Char → List Char → List (List Char)
  | acc, [] => [acc.reverse]
  | acc, c :: cs =>
    if c = '\t' then acc.reverse :: splitAllAux [] cs
    else splitAllAux (c :: acc) cs

/-- Unbounded tab split; this is the notion of tab-separated fields used
by the specification text. -/
def splitTabAll (s : String) : List String :=
  (splitAllAux [] s.data).map (fun cs => String.mk cs)

/-- Python str.isdigit over the ASCII digits: nonempty and all digits. -/
def isDigits (s : String) : Bool :=
  !s.data.isEmpty && s.data.all Char.isDigit

/-- Python int(...) on a pure digit string. -/
def natOfDigits (s : String) : Nat :=
  s.data.foldl (fun n c => n * 10 + (c.toNat - ('0').toNat)) 0

/-- The numeric coercion of a numstat count field, lines 187-188 of
ingest.py: int(raw) if raw.isdigit() else 0. -/
def countField (s : String) : Nat :=
  if isDigits s then natOfDigits s else 0

/-! ## The TAG_RE keyword tagger (lines 26-35 of ingest.py)

The regex is
bword(fix|bug|error|fail|failed|failure|exception|panic|hotfix|issue|
revert|patch|defect|fatal|crash|broken|regress(?:ion)?)bword
with IGNORECASE.  Word characters, case folding and the word boundary
are modelled over the ASCII range. -/

/-- ASCII lower casing on code points: the upper case letters 65-90 map
to 97-122, everything else is unchanged. -/
def lowerN (n : Nat) : Nat :=
  if 65 ≤ n ∧ n ≤ 90 then n + 32 else n

/-- ASCII regex word character: digit, letter or underscore. -/
def isWordN (n : Nat) : Bool :=
  decide ((48 ≤ n ∧ n ≤ 57) ∨ (65 ≤ n ∧ n ≤ 90) ∨ (97 ≤ n ∧ n ≤ 122) ∨ n = 95)

/-- Lower casing on characters (Python str.lower over ASCII). -/
def lowerC (c : Char) : Char := Char.ofNat (lowerN c.toNat)

/-- Lower casing a character list. -/
def lowerList (l : List Char) : List Char := l.map lowerC

/-- Case-insensitive character equality, as under re.IGNORECASE. -/
def ciEq (a b : Char) : Bool := lowerN a.toNat == lowerN b.toNat

/-- Word-character test on characters. -/
def isWordChar (c : Char) : Bool := isWordN c.toNat

/-- Word boundary before the match position: start of string or a
non-word previous character (every keyword starts with a letter). -/
def boundaryBefore : Option Char → Bool
  | none => true
  | some c => !isWordChar c

/-- Word boundary after the match: end of string or a non-word next
character (every keyword ends with a letter). -/
def boundaryAfter : List Char → Bool
  | [] => true
  | c :: _ => !isWordChar c

/-- Case-insensitive prefix test. -/
def isPrefixCI : List Char → List Char → Bool
  | [], _ => true
  | _ :: _, [] => false
  | a :: as, b :: bs => ciEq a b && isPrefixCI as bs

/-- One alternative of TAG_RE matches at the current position: boundary
before, the keyword as a case-insensitive prefix, boundary after. -/
def matchesAt (prev : Option Char) (l : List Char) (k : List Char) : Bool :=
  boundaryBefore prev && isPrefixCI k l && boundaryAfter (l.drop k.length)

/-- The alternatives of TAG_RE in the order the regex engine tries them;
the greedy optional suffix of regress(?:ion)? makes the engine try
regression before regress. -/
def KEYS : List (List Char) :=
  ["fix".data, "bug".data, "error".data, "fail".data, "failed".data,
   "failure".data, "exception".data, "panic".data, "hotfix".data,
   "issue".data, "revert".data, "patch".data, "defect".data,
   "fatal".data, "crash".data, "broken".data,
   "regression".data, "regress".data]

/-- The first alternative that matches at this position, if any. -/
def firstMatchAt (prev : Option Char) (l : List Char) : Option (List Char) :=
  KEYS.find? (fun k => matchesAt prev l k)

/-- Fuelled scan mirroring TAG_RE.finditer: left to right, non
overlapping, recording group(1).lower() of every match.  Fuel at least
the length of the list plus one always suffices. -/
def scanTagsFuel : Nat → Option Char → List Char → List (List Char)
  | 0, _, _ => []
  | _ + 1, _, [] => []
  | fuel + 1, prev, c :: rest =>
    match firstMatchAt prev (c :: rest) with
    | some k =>
      lowerList ((c :: rest).take k.length) ::
        scanTagsFuel fuel (((c :: rest).take k.length).getLast?)
          ((c :: rest).drop k.length)
    | none => scanTagsFuel fuel (some c) rest

/-- The finditer scan with enough fuel. -/
def scanTags (prev : Option Char) (l : List Char) : List (List Char) :=
  scanTagsFuel (l.length + 1) prev l

/-- The set of distinct matched keywords of a subject, line 132 of
ingest.py: the set comprehension over TAG_RE.finditer. -/
def tagList (msg : String) : List String :=
  ((scanTags none msg.data).map (fun l => String.mk l)).dedup

/-- Strict lexicographic order on character lists by code point, the
order Python uses to compare strings. -/
def lexLt : List Char → List Char → Bool
  | [], [] => false
  | [], _ :: _ => true
  | _ :: _, [] => false
  | a :: as, b :: bs =>
    if a.toNat < b.toNat then true
    else if a.toNat = b.toNat then lexLt as bs
    else false

/-- Non-strict lexicographic order on strings by code point. -/
def strLe (a b : String) : Bool := lexLt a.data b.data || a == b

/-- Insertion of a string into a sorted list, for Python sorted(...). -/
def insertSorted (a : String) : List String → List String
  | [] => [a]
  | b :: bs => if strLe a b then a :: b :: bs else b :: insertSorted a bs

/-- Insertion sort by the lexicographic string order, as Python sorted
produces on a set of ASCII strings. -/
def sortStr : List String → List String
  | [] => []
  | a :: as => insertSorted a (sortStr as)

/-- Line 133 of ingest.py: is_fix is 1 if the tag set is nonempty else 0. -/
def isFixVal (msg : String) : Nat :=
  if tagList msg = [] then 0 else 1

/-- Line 134 of ingest.py: error_tags is the comma join of the sorted tag
set, or NULL (none) when the set is empty. -/
def errorTags (msg : String) : Option String :=
  if tagList msg = [] then none
  else some (String.intercalate (",") (sortStr (tagList msg)))

/-! Specification-side tagger: the set of keywords of the fixed
vocabulary that occur as case-insensitive whole words in the subject,
written independently of the scan so the two can be compared. -/

/-- Decides whether keyword k matches at some position of the list, the
previous character being prev; tries every position left to right. -/
def occursAux (k : List Char) : Option Char → List Char → Bool
  | prev, [] => matchesAt prev [] k
  | prev, c :: rest => matchesAt prev (c :: rest) k || occursAux k (some c) rest

/-- Keyword k occurs somewhere in msg as a case-insensitive whole word. -/
def occursWholeWord (k msg : String) : Bool :=
  occursAux k.data none msg.data

/-- The fixed keyword vocabulary of the specification, alphabetically
sorted. -/
def CANON : List String :=
  ["broken", "bug", "crash", "defect", "error", "exception", "fail",
   "failed", "failure", "fatal", "fix", "hotfix", "issue", "panic",
   "patch", "regress", "regression", "revert"]

/-- Modelled from the words of the specification: the sorted list of
distinct keywords occurring as whole words in the subject. -/
def specTagList (msg : String) : List String :=
  CANON.filter (fun k => occursWholeWord k msg)

/-! ## Data model: the two tables and the SQL statements -/

/-- One row of the commits table; also the in-memory dict built by the
header branch of ingest_full (lines 169-180), since the dict is passed
verbatim to UPSERT_COMMIT. -/
structure CommitRec where
  hash : String
  author_name : String
  author_email : String
  authored_at : String
  message : String
  additions : Nat
  deletions : Nat
  files_changed : Nat
  is_fix : Nat
  error_tags : Option String
deriving DecidableEq

/-- One buffered file row, the tuple appended in line 192 of ingest.py. -/
structure FileRow where
  commit_hash : String
  file_path : String
  additions : Nat
  deletions : Nat
deriving DecidableEq

/-- The destination store: commits keyed by hash, commit_files keyed by
(commit_hash, file_path) as the schema declares them unique. -/
structure Db where
  commits : String → Option CommitRec
  commit_files : String × String → Option (Nat × Nat)

/-- The empty store. -/
def emptyDb : Db :=
  { commits := fun _ => none, commit_files := fun _ => none }

/-- UPSERT_COMMIT (lines 44-59): insert keyed by hash, or overwrite every
mutable column of the existing row on duplicate key. -/
def upsertCommitRow (db : Db) (row : CommitRec) : Db :=
  { db with commits := fun h => if h = row.hash then some row else db.commits h }

/-- DELETE_FILES_FOR_COMMIT (line 61): delete every file row of the
commit hash. -/
def deleteFilesForCommit (db : Db) (h : String) : Db :=
  { db with commit_files := fun k => if k.1 = h then none else db.commit_files k }

/-- INSERT_FILE_ROW (lines 62-68): insert keyed by (commit_hash,
file_path), updating additions and deletions on duplicate key. -/
def insertFileRowDb (db : Db) (r : FileRow) : Db :=
  { db with commit_files := fun k =>
      if k = (r.commit_hash, r.file_path) then some (r.additions, r.deletions)
      else db.commit_files k }

/-- One statement executed on the connection; commitTxn is the single
conn.commit() of line 196. -/
inductive DbOp where
  | upsertCommit (row : CommitRec)
  | deleteFiles (commit_hash : String)
  | insertFile (row : FileRow)
  | commitTxn
deriving DecidableEq

/-- Effect of one statement on the connection view of the store. -/
def applyOp (db : Db) : DbOp → Db
  | .upsertCommit row => upsertCommitRow db row
  | .deleteFiles h => deleteFilesForCommit db h
  | .insertFile r => insertFileRowDb db r
  | .commitTxn => db

/-- Effect of a statement sequence. -/
def applyOps (db : Db) (ops : List DbOp) : Db := ops.foldl applyOp db

/-- Lines 131-134 of ingest.py: flush first writes the classifier output
into the current dict before executing the upsert. -/
def finalizeRow (cur : CommitRec) : CommitRec :=
  { cur with is_fix := isFixVal cur.message, error_tags := errorTags cur.message }

/-- The statements one flush executes, in source order (lines 137-151):
the commit upsert, the delete of the file rows of the hash, then one
insert per buffered file row. -/
def flushOps (row : CommitRec) (rows : List FileRow) : List DbOp :=
  DbOp.upsertCommit row :: DbOp.deleteFiles row.hash :: rows.map DbOp.insertFile

/-! ## The parsing loop of ingest_full (lines 121-196) -/

/-- The mutable state of the loop: the pending commit dict, the buffered
file rows, the three counters, the connection view of the store and the
journal of statements executed so far (not yet committed). -/
structure RunState where
  current : Option CommitRec
  file_rows : List FileRow
  headers_seen : Nat
  commits_written : Nat
  files_written : Nat
  db : Db
  journal : List DbOp

/-- flush (lines 127-156): a no-op without a pending commit; otherwise
classify the subject, execute the upsert, the delete and the file row
inserts, bump the counters and clear the pending state. -/
def flush (s : RunState) : RunState :=
  match s.current with
  | none => s
  | some cur =>
    let row := finalizeRow cur
    let ops := flushOps row s.file_rows
    { current := none
      file_rows := []
      headers_seen := s.headers_seen
      commits_written := s.commits_written + 1
      files_written :=
        s.files_written + (if s.file_rows.isEmpty then 0 else s.file_rows.length)
      db := applyOps s.db ops
      journal := s.journal ++ ops }

/-- The body of the loop for one non-blank stripped line (lines 162-192):
a five-part split with a 40 character first field flushes and seeds a
fresh pending commit; a three-part split with a pending commit is a
numstat line; everything else is ignored. -/
def processStripped (s : RunState) (line : String) : RunState :=
  match splitTab4 line with
  | [c_hash, a_name, a_email, authored_at, subject] =>
    if c_hash.length = 40 then
      let s1 := flush s
      { s1 with
        current := some
          { hash := c_hash, author_name := a_name, author_email := a_email,
            authored_at := authored_at, message := subject,
            additions := 0, deletions := 0, files_changed := 0,
            is_fix := 0, error_tags := none }
        headers_seen := s1.headers_seen + 1 }
    else s
  | [a_raw, d_raw, path] =>
    match s.current with
    | some cur =>
      { s with
        current := some
          { cur with
            additions := cur.additions + countField a_raw,
            deletions := cur.deletions + countField d_raw,
            files_changed := cur.files_changed + 1 }
        file_rows := s.file_rows ++
          [{ commit_hash := cur.hash, file_path := path,
             additions := countField a_raw, deletions := countField d_raw }] }
    | none => s
  | _ => s

/-- One raw line (lines 158-161): strip trailing newlines, skip blanks. -/
def processRaw (s : RunState) (raw : String) : RunState :=
  let line := rstripNewlines raw
  if line = "" then s else processStripped s line

/-- The state at loop entry (lines 121-123), over a given store. -/
def initState (db : Db) : RunState :=
  { current := none, file_rows := [], headers_seen := 0,
    commits_written := 0, files_written := 0, db := db, journal := [] }

/-- One full ingestion run over a line stream: the loop followed by the
final flush of line 195. -/
def runIngest (db : Db) (rawLines : List String) : RunState :=
  flush (rawLines.foldl processRaw (initState db))

/-- The statement journal of one run, closed by the single transaction
commit of line 196. -/
def runJournal (db : Db) (rawLines : List String) : List DbOp :=
  (runIngest db rawLines).journal ++ [DbOp.commitTxn]

/-- Durable replay of a statement prefix: statements accumulate on the
connection view and become durable only at a commitTxn; a trailing
uncommitted suffix is lost (the connection rolls back on failure). -/
def durableAux (durable cur : Db) : List DbOp → Db
  | [] => durable
  | DbOp.commitTxn :: rest => durableAux cur cur rest
  | op :: rest => durableAux durable (applyOp cur op) rest

/-- The durable store after executing a statement list from init and
then failing (anything not yet committed is rolled back). -/
def durableDb (init : Db) (ops : List DbOp) : Db := durableAux init init ops

/-! ## The CLI wrapper main (lines 207-219) -/

/-- How one invocation of ingest_full terminates, as seen by main. -/
inductive RunOutcome where
  | ok
  | systemExit (msg : String)
  | valueError (msg : String)
  | otherError (msg : String)
deriving DecidableEq

/-- Exit status of the process for each outcome, from main (lines
212-219): SystemExit is not caught by the two except clauses and makes
the interpreter exit with status 1; ValueError and every other Exception
are caught, printed, and main returns normally, so the process exits 0. -/
def mainExitCode : RunOutcome → Nat
  | .ok => 0
  | .systemExit _ => 1
  | .valueError _ => 0
  | .otherError _ => 0

/-- Line 106 of ingest.py: a target path without a .git directory raises
SystemExit. -/
def outcomeNotARepo (repo : String) : RunOutcome :=
  RunOutcome.systemExit (String.append ("Not a git repo: ") repo)

/-- Line 78 of ingest.py: a missing DB_URL raises ValueError, which main
catches. -/
def outcomeMissingDbUrl : RunOutcome :=
  RunOutcome.valueError ("DB_URL not found in environment variables")

/-! ## Aggregation helpers -/

/-- Sum of the additions of a buffered file row list. -/
def sumAdds (rows : List FileRow) : Nat := (rows.map FileRow.additions).sum

/-- Sum of the deletions of a buffered file row list. -/
def sumDels (rows : List FileRow) : Nat := (rows.map FileRow.deletions).sum

/-! ## Sanity checks on concrete inputs -/

example : splitTab4 ("a\tb\tc\td\te\tf") = ["a", "b", "c", "d", "e\tf"] := by decide
example : splitTabAll ("a\tb\tc\td\te\tf") = ["a", "b", "c", "d", "e", "f"] := by decide
example : splitTab4 ("1\t2\tpath") = ["1", "2", "path"] := by decide
example : rstripNewlines ("abc\n") = "abc" := by decide
example : countField ("12") = 12 := by decide
example : countField ("-") = 0 := by decide
example : sortStr (tagList ("Fixed the bug")) = ["bug"] := by decide
example : sortStr (tagList ("Fix bug in parser")) = ["bug", "fix"] := by decide
example : tagList ("prefix of a word") = [] := by decide
example : tagList ("Add feature") = [] := by decide
example : sortStr (tagList ("regression test")) = ["regression"] := by decide
example : sortStr (tagList ("it regresses")) = [] := by decide
example : errorTags ("Fix bug in parser") = some ("bug,fix") := by decide
example : specTagList ("Fixed the bug") = ["bug"] := by decide
example : specTagList ("Fix bug in parser") = ["bug", "fix"] := by decide
example : specTagList ("prefix of a word") = [] := by decide

example :
    (runIngest emptyDb
      ["aaaaaaaaaaaaaaaaaaaaaaaaaaaaaaaaaaaaaaaa\tAlice\talice@x.com\t2024-01-01T00:00:00+00:00\tFix bug in parser",
       "3\t1\tparser.py"]).db.commits ("aaaaaaaaaaaaaaaaaaaaaaaaaaaaaaaaaaaaaaaa") =
    some
      { hash := "aaaaaaaaaaaaaaaaaaaaaaaaaaaaaaaaaaaaaaaa", author_name := "Alice",
        author_email := "alice@x.com", authored_at := "2024-01-01T00:00:00+00:00",
        message := "Fix bug in parser", additions := 3, deletions := 1,
        files_changed := 1, is_fix := 1, error_tags := some ("bug,fix") } := by decide

example :
    (runIngest emptyDb
      ["aaaaaaaaaaaaaaaaaaaaaaaaaaaaaaaaaaaaaaaa\tAlice\talice@x.com\t2024-01-01T00:00:00+00:00\tFix bug in parser",
       "3\t1\tparser.py"]).db.commit_files
      ("aaaaaaaaaaaaaaaaaaaaaaaaaaaaaaaaaaaaaaaa", "parser.py") = some (3, 1) := by decide

/-! ## Order lemmas for the sort -/

theorem char_eq_of_toNat_eq {a b : Char} (h : a.toNat = b.toNat) : a = b := by
  rw [← Char.ofNat_toNat a, h, Char.ofNat_toNat]


theorem lexLt_cons_iff {a b : Char} {as bs : List Char} :
    lexLt (a :: as) (b :: bs) = true ↔
      (a.toNat < b.toNat ∨ (a.toNat = b.toNat ∧ lexLt as bs = true)) := by
  simp only [lexLt]
  split_ifs with h1 h2
  · exact iff_of_true rfl (Or.inl h1)
  · simp [h1, h2]
  · simp [h1, h2]

theorem lexLt_asymm : ∀ a b, lexLt a b = true → lexLt b a = false
  | [], [], h => by simp [lexLt] at h
  | [], _ :: _, _ => by simp [lexLt]
  | _ :: _, [], h => by simp [lexLt] at h
  | a :: as, b :: bs, h => by
    rcases lexLt_cons_iff.mp h with h1 | ⟨h1, h2⟩
    · rw [Bool.eq_false_iff]
      intro hba
      rcases lexLt_cons_iff.mp hba with h3 | ⟨h3, _⟩ <;> omega
    · rw [Bool.eq_false_iff]
      intro hba
      rcases lexLt_cons_iff.mp hba with h3 | ⟨h3, h4⟩
      · omega
      · have := lexLt_asymm as bs h2
        simp [h4] at this

theorem lexLt_trans : ∀ a b c, lexLt a b = true → lexLt b c = true → lexLt a c = true
  | [], b, c :: cs, _, _ => by simp [lexLt]
  | [], [], [], hab, _ => by simp [lexLt] at hab
  | [], _ :: _, [], _, hbc => by simp [lexLt] at hbc
  | _ :: _, [], _, hab, _ => by simp [lexLt] at hab
  | _ :: _, _ :: _, [], _, hbc => by simp [lexLt] at hbc
  | a :: as, b :: bs, c :: cs, hab, hbc => by
    rcases lexLt_cons_iff.mp hab with h1 | ⟨h1, h2⟩ <;>
      rcases lexLt_cons_iff.mp hbc with h3 | ⟨h3, h4⟩
    · exact lexLt_cons_iff.mpr (Or.inl (by omega))
    · exact lexLt_cons_iff.mpr (Or.inl (by omega))
    · exact lexLt_cons_iff.mpr (Or.inl (by omega))
    · exact lexLt_cons_iff.mpr (Or.inr ⟨by omega, lexLt_trans as bs cs h2 h4⟩)

theorem lexLt_total_or : ∀ a b, lexLt a b = true ∨ lexLt b a = true ∨ a = b
  | [], [] => Or.inr (Or.inr rfl)
  | [], _ :: _ => Or.inl (by simp [lexLt])
  | _ :: _, [] => Or.inr (Or.inl (by simp [lexLt]))
  | a :: as, b :: bs => by
    rcases Nat.lt_trichotomy a.toNat b.toNat with h | h | h
    · exact Or.inl (lexLt_cons_iff.mpr (Or.inl h))
    · have hab : a = b := char_eq_of_toNat_eq h
      subst hab
      rcases lexLt_total_or as bs with h2 | h2 | h2
      · exact Or.inl (lexLt_cons_iff.mpr (Or.inr ⟨rfl, h2⟩))
      · exact Or.inr (Or.inl (lexLt_cons_iff.mpr (Or.inr ⟨rfl, h2⟩)))
      · exact Or.inr (Or.inr (by rw [h2]))
    · exact Or.inr (Or.inl (lexLt_cons_iff.mpr (Or.inl h)))

theorem string_eq_of_data_eq {a b : String} (h : a.data = b.data) : a = b :=
  congrArg String.mk h

theorem strLe_refl (a : String) : strLe a a = true := by simp [strLe]

theorem strLe_total (a b : String) : strLe a b = true ∨ strLe b a = true := by
  rcases lexLt_total_or a.data b.data with h | h | h
  · left; simp [strLe, h]
  · right; simp [strLe, h]
  · have := string_eq_of_data_eq h
    subst this
    left; exact strLe_refl a

theorem strLe_antisymm {a b : String} (h1 : strLe a b = true) (h2 : strLe b a = true) :
    a = b := by
  simp only [strLe, Bool.or_eq_true, beq_iff_eq] at h1 h2
  rcases h1 with h1 | h1
  · rcases h2 with h2 | h2
    · have := lexLt_asymm _ _ h1
      simp [h2] at this
    · exact h2.symm
  · exact h1

theorem strLe_trans {a b c : String} (h1 : strLe a b = true) (h2 : strLe b c = true) :
    strLe a c = true := by
  simp only [strLe, Bool.or_eq_true, beq_iff_eq] at h1 h2 ⊢
  rcases h1 with h1 | h1
  · rcases h2 with h2 | h2
    · exact Or.inl (lexLt_trans _ _ _ h1 h2)
    · subst h2; exact Or.inl h1
  · subst h1; exact h2

/-- The order relation used for the sorted tag list. -/
def strLeR (a b : String) : Prop := strLe a b = true

instance : IsAntisymm String strLeR := ⟨fun _ _ h1 h2 => strLe_antisymm h1 h2⟩

theorem mem_insertSorted (x a : String) : ∀ l, x ∈ insertSorted a l ↔ x = a ∨ x ∈ l
  | [] => by simp [insertSorted]
  | b :: bs => by
    simp only [insertSorted]
    split_ifs with h
    · simp [List.mem_cons]
    · simp [List.mem_cons, mem_insertSorted x a bs]
      tauto

theorem insertSorted_perm (a : String) : ∀ l, (insertSorted a l).Perm (a :: l)
  | [] => List.Perm.refl _
  | b :: bs => by
    simp only [insertSorted]
    split_ifs with h
    · exact List.Perm.refl _
    · exact ((insertSorted_perm a bs).cons b).trans (List.Perm.swap a b bs)

theorem sortStr_perm : ∀ l, (sortStr l).Perm l
  | [] => List.Perm.refl _
  | a :: as => (insertSorted_perm a (sortStr as)).trans ((sortStr_perm as).cons a)

theorem sorted_insertSorted (a : String) :
    ∀ l, l.Pairwise strLeR → (insertSorted a l).Pairwise strLeR
  | [], _ => by simp [insertSorted]
  | b :: bs, hp => by
    simp only [insertSorted]
    rcases List.pairwise_cons.mp hp with ⟨hb, hbs⟩
    split_ifs with h
    · refine List.pairwise_cons.mpr ⟨?_, hp⟩
      intro y hy
      rcases List.mem_cons.mp hy with rfl | hy
      · exact h
      · exact strLe_trans h (hb y hy)
    · refine List.pairwise_cons.mpr ⟨?_, sorted_insertSorted a bs hbs⟩
      intro y hy
      rcases (mem_insertSorted y a bs).mp hy with rfl | hy
      · rcases strLe_total y b with h2 | h2
        · exact absurd h2 h
        · exact h2
      · exact hb y hy

theorem sorted_sortStr : ∀ l, (sortStr l).Pairwise strLeR
  | [] => List.Pairwise.nil
  | a :: as => sorted_insertSorted a (sortStr as) (sorted_sortStr as)

/-! ## Relating the bounded and the unbounded tab split -/

theorem splitAllAux_ne_nil : ∀ acc l, splitAllAux acc l ≠ []
  | _, [] => by simp [splitAllAux]
  | acc, c :: cs => by
    simp only [splitAllAux]
    split_ifs <;> simp [splitAllAux_ne_nil]

theorem splitAllAux_length_pos (acc : List Char) (l : List Char) :
    1 ≤ (splitAllAux acc l).length :=
  List.length_pos.mpr (splitAllAux_ne_nil acc l)

theorem splitAllAux_length_one : ∀ l acc, (splitAllAux acc l).length = 1 →
    splitAllAux acc l = [acc.reverse ++ l]
  | [], acc, _ => by simp [splitAllAux]
  | c :: cs, acc, h => by
    by_cases hc : c = '\t'
    · exfalso
      subst hc
      simp [splitAllAux] at h
      exact splitAllAux_ne_nil [] cs h
    · have hrec := splitAllAux_length_one cs (c :: acc)
        (by simpa [splitAllAux, hc] using h)
      simp [splitAllAux, hc, hrec]

theorem splitTabAux_length : ∀ l k acc,
    (splitTabAux k acc l).length = min ((splitAllAux acc l).length) (k + 1)
  | [], k, acc => by
    simp [splitTabAux, splitAllAux]
  | c :: cs, k, acc => by
    by_cases hc : c = '\t'
    · cases k with
      | zero =>
        have := splitAllAux_length_pos ([] : List Char) cs
        simp [splitTabAux, splitAllAux, hc]
      | succ j =>
        have := splitTabAux_length cs j []
        simp [splitTabAux, splitAllAux, hc, this]
        omega
    · cases k with
      | zero =>
        have := splitAllAux_length_pos (c :: acc) cs
        simp [splitTabAux, splitAllAux, hc]
        omega
      | succ j =>
        have := splitTabAux_length cs (j + 1) (c :: acc)
        simp [splitTabAux, splitAllAux, hc, this]

theorem splitTabAux_head : ∀ l k acc, 1 ≤ k →
    (splitTabAux k acc l).headD [] = (splitAllAux acc l).headD []
  | [], k, acc, _ => by simp [splitTabAux, splitAllAux]
  | c :: cs, k, acc, hk => by
    cases k with
    | zero => omega
    | succ j =>
      by_cases hc : c = '\t'
      · simp [splitTabAux, splitAllAux, hc]
      · simpa [splitTabAux, splitAllAux, hc] using
          splitTabAux_head cs (j + 1) (c :: acc) (by omega)

theorem splitTabAux_eq_all : ∀ l k acc, (splitAllAux acc l).length ≤ k + 1 →
    splitTabAux k acc l = splitAllAux acc l
  | [], k, acc, _ => by simp [splitTabAux, splitAllAux]
  | c :: cs, k, acc, h => by
    by_cases hc : c = '\t'
    · cases k with
      | zero =>
        exfalso
        subst hc
        simp [splitAllAux] at h
        exact splitAllAux_ne_nil [] cs h
      | succ j =>
        have hlen : (splitAllAux ([] : List Char) cs).length ≤ j + 1 := by
          subst hc
          simp [splitAllAux] at h
          omega
        have hrec := splitTabAux_eq_all cs j [] hlen
        simp [splitTabAux, splitAllAux, hc, hrec]
    · cases k with
      | zero =>
        have hone : (splitAllAux (c :: acc) cs).length = 1 := by
          have := splitAllAux_length_pos (c :: acc) cs
          simp [splitAllAux, hc] at h
          omega
        have := splitAllAux_length_one cs (c :: acc) hone
        simp [splitTabAux, splitAllAux, hc, this]
      | succ j =>
        have hlen : (splitAllAux (c :: acc) cs).length ≤ j + 2 := by
          simpa [splitAllAux, hc] using h
        have hrec := splitTabAux_eq_all cs (j + 1) (c :: acc) hlen
        simp [splitTabAux, splitAllAux, hc, hrec]

theorem splitTab4_length (s : String) :
    (splitTab4 s).length = min (splitTabAll s).length 5 := by
  simp [splitTab4, splitTabAll, splitTabAux_length]

theorem splitTab4_eq_of_le5 (s : String) (h : (splitTabAll s).length ≤ 5) :
    splitTab4 s = splitTabAll s := by
  simp only [splitTab4, splitTabAll]
  rw [splitTabAux_eq_all s.data 4 []]
  simpa [splitTabAll] using h

theorem splitTab4_headD (s : String) :
    (splitTab4 s).headD ("") = (splitTabAll s).headD ("") := by
  simp only [splitTab4, splitTabAll]
  have h := splitTabAux_head s.data 4 [] (by omega)
  have h4 := splitAllAux_ne_nil ([] : List Char) s.data
  rcases hx : splitTabAux 4 [] s.data with _ | ⟨x, xs⟩
  · rcases hy : splitAllAux ([] : List Char) s.data with _ | ⟨y, ys⟩
    · simp
    · exfalso
      have hlen := splitTabAux_length s.data 4 []
      rw [hx, hy] at hlen
      simp at hlen
      omega
  · rcases hy : splitAllAux ([] : List Char) s.data with _ | ⟨y, ys⟩
    · exact absurd hy h4
    · rw [hx, hy] at h
      simp at h
      simp [h]

/-! ## Facts about the keyword vocabulary -/

/-- The alternatives of TAG_RE as strings, in regex order. -/
def KEYSTR : List String :=
  ["fix", "bug", "error", "fail", "failed", "failure", "exception",
   "panic", "hotfix", "issue", "revert", "patch", "defect", "fatal",
   "crash", "broken", "regression", "regress"]

theorem KEYS_map_mk : KEYS.map (fun l => String.mk l) = KEYSTR := by decide

theorem KEYSTR_perm_CANON : KEYSTR.Perm CANON := by decide

theorem KEYS_ne_nil : ∀ k ∈ KEYS, k ≠ [] := by decide

theorem KEYS_lower : ∀ k ∈ KEYS, ∀ c ∈ k, 97 ≤ c.toNat ∧ c.toNat ≤ 122 := by decide

theorem KEYS_length_pos {k : List Char} (hk : k ∈ KEYS) : 1 ≤ k.length := by
  have := KEYS_ne_nil k hk
  cases k with
  | nil => simp at this
  | cons a as => simp

theorem mem_KEYS_iff_data {x : String} : x.data ∈ KEYS ↔ x ∈ CANON := by
  constructor
  · intro h
    have h2 : String.mk x.data ∈ KEYS.map (fun l => String.mk l) :=
      List.mem_map_of_mem _ h
    rw [KEYS_map_mk] at h2
    exact KEYSTR_perm_CANON.mem_iff.mp h2
  · intro h
    have h2 : x ∈ KEYSTR := KEYSTR_perm_CANON.mem_iff.mpr h
    rw [← KEYS_map_mk] at h2
    rcases List.mem_map.mp h2 with ⟨l, hl, hlx⟩
    have : l = x.data := by
      have := congrArg String.data hlx
      simpa using this
    rwa [← this]

/-! ## Lemmas about the matcher -/

theorem firstMatchAt_some {prev : Option Char} {l k : List Char}
    (h : firstMatchAt prev l = some k) : k ∈ KEYS ∧ matchesAt prev l k = true :=
  ⟨List.mem_of_find?_eq_some h, List.find?_some h⟩

theorem firstMatchAt_none {prev : Option Char} {l : List Char}
    (h : firstMatchAt prev l = none) : ∀ k ∈ KEYS, matchesAt prev l k = false := by
  intro k hk
  have := List.find?_eq_none.mp h k hk
  simpa using this

theorem matchesAt_nil_false {prev : Option Char} {k : List Char} (hk : k ∈ KEYS) :
    matchesAt prev [] k = false := by
  have := KEYS_ne_nil k hk
  cases k with
  | nil => simp at this
  | cons a as => simp [matchesAt, isPrefixCI]

theorem matchesAt_word_prev_false {c : Char} {l k : List Char}
    (h : isWordChar c = true) : matchesAt (some c) l k = false := by
  simp [matchesAt, boundaryBefore, h]

theorem isWordN_of_lower_eq {m n : Nat} (h : lowerN m = lowerN n)
    (hn : 97 ≤ n ∧ n ≤ 122) : isWordN m = true := by
  unfold lowerN at h
  unfold isWordN
  split_ifs at h <;> simp <;> omega

theorem lowerN_id_of_lower {n : Nat} (hn : 97 ≤ n ∧ n ≤ 122) : lowerN n = n := by
  unfold lowerN
  split_ifs <;> omega

theorem lowerC_eq_of_ciEq {a b : Char} (h : ciEq a b = true)
    (ha : 97 ≤ a.toNat ∧ a.toNat ≤ 122) : lowerC b = a := by
  simp only [ciEq, beq_iff_eq] at h
  rw [lowerN_id_of_lower ha] at h
  unfold lowerC
  rw [← h, Char.ofNat_toNat]

theorem isPrefixCI_length_le : ∀ k l : List Char, isPrefixCI k l = true →
    k.length ≤ l.length
  | [], _, _ => by simp
  | _ :: _, [], h => by simp [isPrefixCI] at h
  | a :: as, b :: bs, h => by
    simp only [isPrefixCI, Bool.and_eq_true] at h
    have := isPrefixCI_length_le as bs h.2
    simp only [List.length_cons]
    omega

theorem lowerList_take_eq : ∀ k l : List Char,
    (∀ c ∈ k, 97 ≤ c.toNat ∧ c.toNat ≤ 122) → isPrefixCI k l = true →
    lowerList (l.take k.length) = k
  | [], l, _, _ => by simp [lowerList]
  | a :: as, [], _, hp => by simp [isPrefixCI] at hp
  | a :: as, b :: bs, hc, hp => by
    simp only [isPrefixCI, Bool.and_eq_true] at hp
    have h1 : lowerC b = a := lowerC_eq_of_ciEq hp.1 (hc a (List.mem_cons_self a as))
    have h2 := lowerList_take_eq as bs (fun c hcc => hc c (List.mem_cons_of_mem _ hcc)) hp.2
    simp only [List.length_cons, List.take_succ_cons, lowerList, List.map_cons]
    simp only [lowerList] at h2
    rw [h1, h2]

theorem take_all_word : ∀ k l : List Char,
    (∀ c ∈ k, 97 ≤ c.toNat ∧ c.toNat ≤ 122) → isPrefixCI k l = true →
    ∀ c ∈ l.take k.length, isWordChar c = true
  | [], l, _, _ => by simp
  | _ :: _, [], _, hp => by simp [isPrefixCI] at hp
  | a :: as, b :: bs, hc, hp => by
    simp only [isPrefixCI, Bool.and_eq_true] at hp
    intro c hmem
    simp only [List.length_cons, List.take_succ_cons, List.mem_cons] at hmem
    rcases hmem with rfl | hmem
    · have ha := hc a (List.mem_cons_self a as)
      simp only [ciEq, beq_iff_eq] at hp
      exact isWordN_of_lower_eq (by omega) ha
    · exact take_all_word as bs (fun d hd => hc d (List.mem_cons_of_mem _ hd)) hp.2 c hmem

theorem prefixCI_agree : ∀ k1 k2 l : List Char, isPrefixCI k1 l = true →
    isPrefixCI k2 l = true → k1.length ≤ k2.length →
    k1.map (fun c => lowerN c.toNat) = (k2.map (fun c => lowerN c.toNat)).take k1.length
  | [], _, _, _, _, _ => by simp
  | _ :: _, [], _, _, _, hlen => by simp at hlen
  | _ :: _, _ :: _, [], hp1, _, _ => by simp [isPrefixCI] at hp1
  | a :: as, x :: xs, b :: bs, hp1, hp2, hlen => by
    simp only [isPrefixCI, Bool.and_eq_true] at hp1 hp2
    have hhead : lowerN a.toNat = lowerN x.toNat := by
      have e1 := hp1.1
      have e2 := hp2.1
      simp only [ciEq, beq_iff_eq] at e1 e2
      omega
    have htail := prefixCI_agree as xs bs hp1.2 hp2.2 (by simpa using Nat.le_of_succ_le_succ hlen)
    simp only [List.map_cons, List.length_cons, List.take_succ_cons]
    rw [hhead, htail]

theorem map_toNat_inj : ∀ l1 l2 : List Char,
    l1.map Char.toNat = l2.map Char.toNat → l1 = l2
  | [], [], _ => rfl
  | [], _ :: _, h => by simp at h
  | _ :: _, [], h => by simp at h
  | a :: as, b :: bs, h => by
    simp only [List.map_cons, List.cons.injEq] at h
    rw [char_eq_of_toNat_eq h.1, map_toNat_inj as bs h.2]

theorem map_lower_self {k : List Char} (hk : ∀ c ∈ k, 97 ≤ c.toNat ∧ c.toNat ≤ 122) :
    k.map (fun c => lowerN c.toNat) = k.map Char.toNat := by
  induction k with
  | nil => rfl
  | cons a as ih =>
    simp only [List.map_cons, List.cons.injEq]
    exact ⟨lowerN_id_of_lower (hk a (List.mem_cons_self a as)),
      ih (fun c hc => hk c (List.mem_cons_of_mem _ hc))⟩

theorem boundary_mid_false : ∀ (k l : List Char) (j : Nat), isPrefixCI k l = true →
    (∀ c ∈ k, 97 ≤ c.toNat ∧ c.toNat ≤ 122) → j < k.length →
    boundaryAfter (l.drop j) = false
  | [], _, j, _, _, hj => by simp at hj
  | _ :: _, [], _, hp, _, _ => by simp [isPrefixCI] at hp
  | a :: as, b :: bs, 0, hp, hlow, _ => by
    simp only [isPrefixCI, Bool.and_eq_true] at hp
    have e1 := hp.1
    simp only [ciEq, beq_iff_eq] at e1
    have hw : isWordChar b = true :=
      isWordN_of_lower_eq e1.symm (hlow a (List.mem_cons_self a as))
    simp [boundaryAfter, hw]
  | a :: as, b :: bs, j + 1, hp, hlow, hj => by
    simp only [isPrefixCI, Bool.and_eq_true] at hp
    simp only [List.drop_succ_cons]
    exact boundary_mid_false as bs j hp.2
      (fun c hc => hlow c (List.mem_cons_of_mem _ hc))
      (by simpa using Nat.lt_of_succ_lt_succ hj)

theorem matchesAt_unique {prev : Option Char} {l k1 k2 : List Char}
    (h1 : matchesAt prev l k1 = true) (h2 : matchesAt prev l k2 = true)
    (hk1 : k1 ∈ KEYS) (hk2 : k2 ∈ KEYS) : k1 = k2 := by
  simp only [matchesAt, Bool.and_eq_true] at h1 h2
  rcases Nat.lt_trichotomy k1.length k2.length with hlt | heq | hgt
  · exfalso
    have := boundary_mid_false k2 l k1.length h2.1.2 (KEYS_lower k2 hk2) hlt
    rw [h1.2] at this
    simp at this
  · have ha := prefixCI_agree k1 k2 l h1.1.2 h2.1.2 (by omega)
    rw [List.take_of_length_le (by simp; omega)] at ha
    rw [map_lower_self (KEYS_lower k1 hk1), map_lower_self (KEYS_lower k2 hk2)] at ha
    exact map_toNat_inj _ _ ha
  · exfalso
    have := boundary_mid_false k1 l k2.length h1.1.2 (KEYS_lower k1 hk1) hgt
    rw [h2.2] at this
    simp at this

/-! ## Unfolding the fuelled scan -/

theorem scanTagsFuel_cons_some {f : Nat} {prev : Option Char} {c : Char}
    {rest k : List Char} (hm : firstMatchAt prev (c :: rest) = some k) :
    scanTagsFuel (f + 1) prev (c :: rest) =
      lowerList ((c :: rest).take k.length) ::
        scanTagsFuel f (((c :: rest).take k.length).getLast?)
          ((c :: rest).drop k.length) := by
  simp only [scanTagsFuel, hm]

theorem scanTagsFuel_cons_none {f : Nat} {prev : Option Char} {c : Char}
    {rest : List Char} (hm : firstMatchAt prev (c :: rest) = none) :
    scanTagsFuel (f + 1) prev (c :: rest) = scanTagsFuel f (some c) rest := by
  simp only [scanTagsFuel, hm]

theorem scanTagsFuel_irrel : ∀ f1 f2 (prev : Option Char) (l : List Char),
    l.length < f1 → l.length < f2 →
    scanTagsFuel f1 prev l = scanTagsFuel f2 prev l := by
  intro f1
  induction f1 with
  | zero => intro f2 prev l h1 _; omega
  | succ f ih =>
    intro f2 prev l h1 h2
    cases l with
    | nil =>
      cases f2 with
      | zero => omega
      | succ g => rfl
    | cons c rest =>
      cases f2 with
      | zero => omega
      | succ g =>
        rcases hm : firstMatchAt prev (c :: rest) with _ | k
        · rw [scanTagsFuel_cons_none hm, scanTagsFuel_cons_none hm]
          exact ih g (some c) rest (by simp at h1; omega) (by simp at h2; omega)
        · rw [scanTagsFuel_cons_some hm, scanTagsFuel_cons_some hm]
          have hk := (firstMatchAt_some hm).1
          have hk1 : 1 ≤ k.length := KEYS_length_pos hk
          have hd : ((c :: rest).drop k.length).length < f := by
            simp at h1 ⊢
            omega
          have hd2 : ((c :: rest).drop k.length).length < g := by
            simp at h2 ⊢
            omega
          rw [ih g _ _ hd hd2]

theorem scanTags_cons_some {prev : Option Char} {c : Char} {rest k : List Char}
    (hm : firstMatchAt prev (c :: rest) = some k) :
    scanTags prev (c :: rest) =
      lowerList ((c :: rest).take k.length) ::
        scanTags (((c :: rest).take k.length).getLast?)
          ((c :: rest).drop k.length) := by
  have hk1 : 1 ≤ k.length := KEYS_length_pos (firstMatchAt_some hm).1
  unfold scanTags
  show scanTagsFuel (rest.length + 1 + 1) prev (c :: rest) = _
  rw [scanTagsFuel_cons_some hm]
  congr 1
  exact scanTagsFuel_irrel _ _ _ _ (by simp; omega) (by omega)

theorem scanTags_cons_none {prev : Option Char} {c : Char} {rest : List Char}
    (hm : firstMatchAt prev (c :: rest) = none) :
    scanTags prev (c :: rest) = scanTags (some c) rest := by
  unfold scanTags
  show scanTagsFuel (rest.length + 1 + 1) prev (c :: rest) = _
  rw [scanTagsFuel_cons_none hm]

theorem occursAux_cons (k : List Char) (prev : Option Char) (c : Char) (rest : List Char) :
    occursAux k prev (c :: rest) =
      (matchesAt prev (c :: rest) k || occursAux k (some c) rest) := rfl

/-- Scanning from inside a run of word characters finds the same
occurrences as scanning from its end: no whole word can start there. -/
theorem occursAux_skip_word : ∀ (front2 tail : List Char) (k : List Char) (c : Char),
    isWordChar c = true → (∀ d ∈ front2, isWordChar d = true) →
    occursAux k (some c) (front2 ++ tail) = occursAux k ((c :: front2).getLast?) tail
  | [], tail, k, c, _, _ => by simp
  | d :: f2, tail, k, c, hc, hf => by
    rw [List.cons_append, occursAux_cons, matchesAt_word_prev_false hc]
    simp only [Bool.false_or]
    rw [occursAux_skip_word f2 tail k d (hf d (List.mem_cons_self d f2))
      (fun e he => hf e (List.mem_cons_of_mem _ he))]
    rw [List.getLast?_cons_cons]

theorem scan_nil_iff (prev : Option Char) (x : List Char) :
    x ∈ scanTags prev [] ↔ (x ∈ KEYS ∧ occursAux x prev [] = true) := by
  constructor
  · intro h
    simp [scanTags, scanTagsFuel] at h
  · rintro ⟨hk, hocc⟩
    have h0 : occursAux x prev [] = matchesAt prev [] x := rfl
    rw [h0, matchesAt_nil_false hk] at hocc
    exact absurd hocc (by simp)

/-- The heart of the classifier correctness: a keyword is recorded by the
finditer scan exactly when it matches as a whole word somewhere. -/
theorem scan_mem_iff : ∀ (n : Nat) (l : List Char) (prev : Option Char) (x : List Char),
    l.length ≤ n →
    (x ∈ scanTags prev l ↔ (x ∈ KEYS ∧ occursAux x prev l = true)) := by
  intro n
  induction n with
  | zero =>
    intro l prev x hl
    have : l = [] := List.length_eq_zero.mp (by omega)
    subst this
    exact scan_nil_iff prev x
  | succ m ih =>
    intro l prev x hl
    cases l with
    | nil => exact scan_nil_iff prev x
    | cons c rest =>
      rcases hm : firstMatchAt prev (c :: rest) with _ | k
      · rw [scanTags_cons_none hm]
        have hrest : rest.length ≤ m := by simp at hl; omega
        rw [ih rest (some c) x hrest, occursAux_cons]
        constructor
        · rintro ⟨hk, h⟩
          exact ⟨hk, by simp [h]⟩
        · rintro ⟨hk, h⟩
          refine ⟨hk, ?_⟩
          rcases (Bool.or_eq_true _ _).mp h with h1 | h1
          · rw [firstMatchAt_none hm x hk] at h1
            exact absurd h1 (by simp)
          · exact h1
      · have hkK := (firstMatchAt_some hm).1
        have hkM := (firstMatchAt_some hm).2
        have hk1 : 1 ≤ k.length := KEYS_length_pos hkK
        have hpref : isPrefixCI k (c :: rest) = true := by
          have h2 := hkM
          simp only [matchesAt, Bool.and_eq_true] at h2
          exact h2.1.2
        have hlow := lowerList_take_eq k (c :: rest) (KEYS_lower k hkK) hpref
        have hword := take_all_word k (c :: rest) (KEYS_lower k hkK) hpref
        obtain ⟨j, hj⟩ : ∃ j, k.length = j + 1 := ⟨k.length - 1, by omega⟩
        have htake : (c :: rest).take k.length = c :: rest.take j := by
          rw [hj, List.take_succ_cons]
        have hdrop : (c :: rest).drop k.length = rest.drop j := by
          rw [hj, List.drop_succ_cons]
        have hsplit : rest.take j ++ rest.drop j = rest := List.take_append_drop j rest
        have hcw : isWordChar c = true := by
          refine hword c ?_
          rw [htake]
          exact List.mem_cons_self c _
        have hf2w : ∀ e ∈ rest.take j, isWordChar e = true := by
          intro e he
          refine hword e ?_
          rw [htake]
          exact List.mem_cons_of_mem _ he
        have hskip : occursAux x (some c) rest =
            occursAux x ((c :: rest.take j).getLast?) (rest.drop j) := by
          conv_lhs => rw [← hsplit]
          exact occursAux_skip_word _ _ x c hcw hf2w
        have hdlen : (rest.drop j).length ≤ m := by
          simp only [List.length_cons] at hl
          simp [List.length_drop]
          omega
        have hIH := ih (rest.drop j) ((c :: rest.take j).getLast?) x hdlen
        rw [scanTags_cons_some hm, hlow, htake, hdrop]
        constructor
        · intro hmem
          rcases List.mem_cons.mp hmem with rfl | hmem2
          · refine ⟨hkK, ?_⟩
            rw [occursAux_cons, hkM]
            simp
          · have h3 := hIH.mp hmem2
            refine ⟨h3.1, ?_⟩
            rw [occursAux_cons, hskip, h3.2]
            simp
        · rintro ⟨hkx, hocc⟩
          rw [occursAux_cons] at hocc
          rcases (Bool.or_eq_true _ _).mp hocc with h1 | h1
          · have : x = k := matchesAt_unique h1 hkM hkx hkK
            rw [this]
            exact List.mem_cons_self _ _
          · rw [hskip] at h1
            exact List.mem_cons_of_mem _ (hIH.mpr ⟨hkx, h1⟩)

theorem tagList_mem_iff (msg x : String) :
    x ∈ tagList msg ↔ (x ∈ CANON ∧ occursWholeWord x msg = true) := by
  unfold tagList occursWholeWord
  rw [List.mem_dedup, List.mem_map]
  constructor
  · rintro ⟨l, hl, rfl⟩
    have h1 := (scan_mem_iff msg.data.length msg.data none l le_rfl).mp hl
    exact ⟨mem_KEYS_iff_data.mp h1.1, h1.2⟩
  · rintro ⟨hc, hocc⟩
    exact ⟨x.data,
      (scan_mem_iff msg.data.length msg.data none x.data le_rfl).mpr
        ⟨mem_KEYS_iff_data.mpr hc, hocc⟩, rfl⟩

theorem tagList_nodup (msg : String) : (tagList msg).Nodup := List.nodup_dedup _

theorem CANON_nodup : CANON.Nodup := by decide

instance : DecidableRel strLeR := fun a b => by
  unfold strLeR
  infer_instance

theorem CANON_sorted : CANON.Pairwise strLeR := by decide

theorem specTagList_nodup (msg : String) : (specTagList msg).Nodup :=
  CANON_nodup.filter _

theorem specTagList_sorted (msg : String) : (specTagList msg).Pairwise strLeR :=
  CANON_sorted.filter _

theorem tagList_perm_spec (msg : String) : (tagList msg).Perm (specTagList msg) := by
  refine (List.perm_ext_iff_of_nodup (tagList_nodup msg) (specTagList_nodup msg)).mpr ?_
  intro a
  rw [tagList_mem_iff]
  simp [specTagList, List.mem_filter]

theorem sorted_tagList_eq_spec (msg : String) : sortStr (tagList msg) = specTagList msg := by
  have hs1 : List.Sorted strLeR (sortStr (tagList msg)) := sorted_sortStr _
  have hs2 : List.Sorted strLeR (specTagList msg) := specTagList_sorted msg
  exact List.eq_of_perm_of_sorted ((sortStr_perm _).trans (tagList_perm_spec msg)) hs1 hs2

theorem tagList_eq_nil_iff_spec (msg : String) :
    tagList msg = [] ↔ specTagList msg = [] := by
  have hlen := (tagList_perm_spec msg).length_eq
  constructor <;> intro h <;> rw [← List.length_eq_zero] at h ⊢ <;> omega

/-! ## Structural lemmas about flush and the loop body -/

theorem flush_none {s : RunState} (h : s.current = none) : flush s = s := by
  unfold flush
  rw [h]

theorem flush_some {s : RunState} {cur : CommitRec} (h : s.current = some cur) :
    flush s =
      { current := none
        file_rows := []
        headers_seen := s.headers_seen
        commits_written := s.commits_written + 1
        files_written :=
          s.files_written + (if s.file_rows.isEmpty then 0 else s.file_rows.length)
        db := applyOps s.db (flushOps (finalizeRow cur) s.file_rows)
        journal := s.journal ++ flushOps (finalizeRow cur) s.file_rows } := by
  unfold flush
  rw [h]

theorem flush_current (s : RunState) : (flush s).current = none := by
  unfold flush
  rcases h : s.current with _ | cur
  · exact h
  · rfl

theorem flush_headers (s : RunState) : (flush s).headers_seen = s.headers_seen := by
  unfold flush
  rcases h : s.current with _ | cur <;> rfl

theorem processStripped_header {s : RunState} {line hsh an ae at_ sb : String}
    (hsplit : splitTab4 line = [hsh, an, ae, at_, sb]) (hlen : hsh.length = 40) :
    processStripped s line =
      { flush s with
        current := some
          { hash := hsh, author_name := an, author_email := ae,
            authored_at := at_, message := sb,
            additions := 0, deletions := 0, files_changed := 0,
            is_fix := 0, error_tags := none }
        headers_seen := (flush s).headers_seen + 1 } := by
  unfold processStripped
  rw [hsplit]
  simp [hlen]

theorem processStripped_numstat {s : RunState} {line a d p : String} {cur : CommitRec}
    (hsplit : splitTab4 line = [a, d, p]) (hcur : s.current = some cur) :
    processStripped s line =
      { s with
        current := some
          { cur with
            additions := cur.additions + countField a,
            deletions := cur.deletions + countField d,
            files_changed := cur.files_changed + 1 }
        file_rows := s.file_rows ++
          [{ commit_hash := cur.hash, file_path := p,
             additions := countField a, deletions := countField d }] } := by
  unfold processStripped
  rw [hsplit, hcur]

/-- Every behaviour of the loop body: skip, header step, or numstat step. -/
theorem processStripped_cases (s : RunState) (line : String) :
    processStripped s line = s ∨
    (∃ hsh an ae at_ sb, splitTab4 line = [hsh, an, ae, at_, sb] ∧ hsh.length = 40) ∨
    (∃ a d p cur, splitTab4 line = [a, d, p] ∧ s.current = some cur) := by
  rcases hs : splitTab4 line with _ | ⟨x1, _ | ⟨x2, _ | ⟨x3, _ | ⟨x4, _ | ⟨x5, _ | ⟨x6, r⟩⟩⟩⟩⟩⟩
  · left
    unfold processStripped
    rw [hs]
  · left
    unfold processStripped
    rw [hs]
  · left
    unfold processStripped
    rw [hs]
  · rcases hc : s.current with _ | cur
    · left
      unfold processStripped
      rw [hs, hc]
    · right; right
      exact ⟨x1, x2, x3, cur, rfl, rfl⟩
  · left
    unfold processStripped
    rw [hs]
  · by_cases hl : x1.length = 40
    · right; left
      exact ⟨x1, x2, x3, x4, x5, rfl, hl⟩
    · left
      unfold processStripped
      rw [hs]
      simp [hl]
  · left
    unfold processStripped
    rw [hs]

/-! ## The loop invariant: aggregation and counter bookkeeping -/

/-- Invariant of the parsing loop: without a pending commit the file row
buffer is empty; a pending commit always carries exactly the totals of
the buffered rows; headers seen exceed commits written by exactly the
pending commit. -/
def StateInv (s : RunState) : Prop :=
  (s.current = none → s.file_rows = []) ∧
  (∀ c, s.current = some c →
    c.additions = sumAdds s.file_rows ∧ c.deletions = sumDels s.file_rows ∧
    c.files_changed = s.file_rows.length) ∧
  s.headers_seen = s.commits_written + (if s.current.isSome then 1 else 0)

theorem stateInv_init (db : Db) : StateInv (initState db) := by
  refine ⟨fun _ => rfl, ?_, rfl⟩
  intro c hc
  exact absurd hc (by simp [initState])

theorem stateInv_flush {s : RunState} (h : StateInv s) : StateInv (flush s) := by
  rcases hc : s.current with _ | cur
  · rw [flush_none hc]
    exact h
  · rw [flush_some hc]
    refine ⟨fun _ => rfl, ?_, ?_⟩
    · intro c hcc
      exact absurd hcc (by simp)
    · have h3 := h.2.2
      rw [hc] at h3
      simp at h3
      simpa using h3

theorem flush_rows_nil {s : RunState} (h : StateInv s) : (flush s).file_rows = [] := by
  rcases hc : s.current with _ | cur
  · rw [flush_none hc]
    exact h.1 hc
  · rw [flush_some hc]

theorem sumAdds_append (xs ys : List FileRow) :
    sumAdds (xs ++ ys) = sumAdds xs + sumAdds ys := by
  simp [sumAdds]

theorem sumDels_append (xs ys : List FileRow) :
    sumDels (xs ++ ys) = sumDels xs + sumDels ys := by
  simp [sumDels]

theorem stateInv_processStripped {s : RunState} (line : String) (h : StateInv s) :
    StateInv (processStripped s line) := by
  rcases processStripped_cases s line with he | ⟨hsh, an, ae, at_, sb, hs5, hl40⟩ |
    ⟨a, d, p, cur, hs3, hcur⟩
  · rw [he]
    exact h
  · rw [processStripped_header hs5 hl40]
    have hf := stateInv_flush h
    refine ⟨?_, ?_, ?_⟩
    · intro hnone
      exact absurd hnone (by simp)
    · intro c hcc
      have hrows : (flush s).file_rows = [] := flush_rows_nil h
      simp only [Option.some.injEq] at hcc
      subst hcc
      simp [hrows, sumAdds, sumDels]
    · have hf3 := hf.2.2
      rw [flush_current] at hf3
      simp at hf3
      simpa using hf3
  · rw [processStripped_numstat hs3 hcur]
    obtain ⟨h1, h2, h3⟩ := h
    have hcx := h2 cur hcur
    refine ⟨?_, ?_, ?_⟩
    · intro hnone
      exact absurd hnone (by simp)
    · intro c hcc
      simp only [Option.some.injEq] at hcc
      subst hcc
      refine ⟨?_, ?_, ?_⟩
      · simp [sumAdds_append, hcx.1, sumAdds]
      · simp [sumDels_append, hcx.2.1, sumDels]
      · simp [hcx.2.2]
    · rw [hcur] at h3
      simpa using h3

theorem stateInv_processRaw {s : RunState} (raw : String) (h : StateInv s) :
    StateInv (processRaw s raw) := by
  show StateInv
    (if rstripNewlines raw = "" then s else processStripped s (rstripNewlines raw))
  by_cases he : rstripNewlines raw = ""
  · rw [if_pos he]
    exact h
  · rw [if_neg he]
    exact stateInv_processStripped _ h

theorem stateInv_foldl : ∀ (lines : List String) (s : RunState),
    StateInv s → StateInv (lines.foldl processRaw s)
  | [], _, h => h
  | l :: ls, _, h => stateInv_foldl ls _ (stateInv_processRaw l h)

/-! ## Effect of the flush statements on the store -/

theorem commits_insertFiles : ∀ (rows : List FileRow) (db : Db),
    (applyOps db (rows.map DbOp.insertFile)).commits = db.commits
  | [], _ => rfl
  | r :: rs, db => by
    show (applyOps (applyOp db (DbOp.insertFile r)) (rs.map DbOp.insertFile)).commits = _
    rw [commits_insertFiles rs]
    rfl

theorem commits_flushOps (db : Db) (row : CommitRec) (rows : List FileRow) (h : String) :
    (applyOps db (flushOps row rows)).commits h =
      if h = row.hash then some row else db.commits h := by
  show (applyOps
    (applyOp (applyOp db (DbOp.upsertCommit row)) (DbOp.deleteFiles row.hash))
    (rows.map DbOp.insertFile)).commits h = _
  rw [commits_insertFiles]
  rfl

/-- A 40 character hash used by concrete examples. -/
def hash40 : String := "aaaaaaaaaaaaaaaaaaaaaaaaaaaaaaaaaaaaaaaa"

/-- Claim C1: whenever a commit is pending after parsing any prefix of
the stream (every flush the parser performs, mid-stream on the next
header or at end of input, flushes such a state), the persisted commit
row carries additions equal to the sum of the additions of the buffered
FileChange rows, deletions equal to the sum of their deletions, and
files_changed equal to the number of those rows; for a commit with no
file rows the sums and the count are 0, so all three persist as 0. -/
theorem flush_persists_row_sums (db : Db) (rawLines : List String) (c : CommitRec)
    (hc : (rawLines.foldl processRaw (initState db)).current = some c) :
    ((flush (rawLines.foldl processRaw (initState db))).db.commits c.hash).map
        (fun r => (r.additions, r.deletions, r.files_changed)) =
      some (sumAdds (rawLines.foldl processRaw (initState db)).file_rows,
            sumDels (rawLines.foldl processRaw (initState db)).file_rows,
            (rawLines.foldl processRaw (initState db)).file_rows.length) := by
  have hinv := stateInv_foldl rawLines (initState db) (stateInv_init db)
  have hsum := hinv.2.1 c hc
  rw [flush_some hc]
  show ((applyOps _ (flushOps (finalizeRow c) _)).commits c.hash).map _ = _
  rw [commits_flushOps]
  have hhash : c.hash = (finalizeRow c).hash := rfl
  rw [if_pos hhash]
  have hmap : ((some (finalizeRow c)).map
      (fun r => (r.additions, r.deletions, r.files_changed))) =
      some (c.additions, c.deletions, c.files_changed) := rfl
  rw [hmap, hsum.1, hsum.2.1, hsum.2.2]

/-- Witness for C1 on a concrete stream with one header, one numeric
numstat line and one binary-marker numstat line. -/
theorem flush_persists_row_sums_witness :
    ((flush (["aaaaaaaaaaaaaaaaaaaaaaaaaaaaaaaaaaaaaaaa\tA\ta@x\t2024-01-01T00:00:00+00:00\tFix bug",
              "3\t1\tf.py", "-\t-\tbin.png"].foldl processRaw
        (initState emptyDb))).db.commits
      ({ hash := hash40, author_name := "A", author_email := "a@x",
         authored_at := "2024-01-01T00:00:00+00:00", message := "Fix bug",
         additions := 3, deletions := 1, files_changed := 2,
         is_fix := 0, error_tags := none } : CommitRec).hash).map
        (fun r => (r.additions, r.deletions, r.files_changed)) =
      some (sumAdds (["aaaaaaaaaaaaaaaaaaaaaaaaaaaaaaaaaaaaaaaa\tA\ta@x\t2024-01-01T00:00:00+00:00\tFix bug",
              "3\t1\tf.py", "-\t-\tbin.png"].foldl processRaw
        (initState emptyDb)).file_rows,
            sumDels (["aaaaaaaaaaaaaaaaaaaaaaaaaaaaaaaaaaaaaaaa\tA\ta@x\t2024-01-01T00:00:00+00:00\tFix bug",
              "3\t1\tf.py", "-\t-\tbin.png"].foldl processRaw
        (initState emptyDb)).file_rows,
            (["aaaaaaaaaaaaaaaaaaaaaaaaaaaaaaaaaaaaaaaa\tA\ta@x\t2024-01-01T00:00:00+00:00\tFix bug",
              "3\t1\tf.py", "-\t-\tbin.png"].foldl processRaw
        (initState emptyDb)).file_rows.length) :=
  flush_persists_row_sums emptyDb _ _ (by decide)

/-- Claim C8: a header line arriving in any state first flushes the
pending commit and only then installs the fresh pending commit seeded
from the five fields with additions, deletions and files_changed all
zero; and a full run ends in a flushed state with no pending commit and
exactly as many commits written as headers seen, so no parsed commit is
dropped and no totals carry over. -/
theorem header_flush_and_eof_flush :
    (∀ (s : RunState) (line hsh an ae at_ sb : String),
        splitTab4 line = [hsh, an, ae, at_, sb] → hsh.length = 40 →
        processStripped s line =
          { flush s with
            current := some
              { hash := hsh, author_name := an, author_email := ae,
                authored_at := at_, message := sb,
                additions := 0, deletions := 0, files_changed := 0,
                is_fix := 0, error_tags := none }
            headers_seen := (flush s).headers_seen + 1 }) ∧
    (∀ (db : Db) (rawLines : List String),
        (runIngest db rawLines).current = none ∧
        (runIngest db rawLines).commits_written = (runIngest db rawLines).headers_seen) := by
  constructor
  · intro s line hsh an ae at_ sb h1 h2
    exact processStripped_header h1 h2
  · intro db rawLines
    refine ⟨flush_current _, ?_⟩
    have hinv := stateInv_flush (stateInv_foldl rawLines (initState db) (stateInv_init db))
    have h3 := hinv.2.2
    rw [flush_current] at h3
    simp at h3
    show (flush (rawLines.foldl processRaw (initState db))).commits_written =
      (flush (rawLines.foldl processRaw (initState db))).headers_seen
    omega

/-- Witness for C8: a header line processed while a commit is pending,
and the end of input state of a two-line run. -/
theorem header_flush_and_eof_flush_witness :
    (processStripped
        (processStripped (initState emptyDb)
          ("aaaaaaaaaaaaaaaaaaaaaaaaaaaaaaaaaaaaaaaa\tA\ta@x\t2024\tm1"))
        ("bbbbbbbbbbbbbbbbbbbbbbbbbbbbbbbbbbbbbbbb\tB\tb@x\t2025\tm2") =
      { flush (processStripped (initState emptyDb)
          ("aaaaaaaaaaaaaaaaaaaaaaaaaaaaaaaaaaaaaaaa\tA\ta@x\t2024\tm1")) with
        current := some
          { hash := "bbbbbbbbbbbbbbbbbbbbbbbbbbbbbbbbbbbbbbbb", author_name := "B",
            author_email := "b@x", authored_at := "2025", message := "m2",
            additions := 0, deletions := 0, files_changed := 0,
            is_fix := 0, error_tags := none }
        headers_seen := (flush (processStripped (initState emptyDb)
          ("aaaaaaaaaaaaaaaaaaaaaaaaaaaaaaaaaaaaaaaa\tA\ta@x\t2024\tm1"))).headers_seen + 1 }) ∧
    ((runIngest emptyDb ["aaaaaaaaaaaaaaaaaaaaaaaaaaaaaaaaaaaaaaaa\tA\ta@x\t2024\tm1",
        "3\t1\tf.py"]).current = none ∧
      (runIngest emptyDb ["aaaaaaaaaaaaaaaaaaaaaaaaaaaaaaaaaaaaaaaa\tA\ta@x\t2024\tm1",
        "3\t1\tf.py"]).commits_written =
      (runIngest emptyDb ["aaaaaaaaaaaaaaaaaaaaaaaaaaaaaaaaaaaaaaaa\tA\ta@x\t2024\tm1",
        "3\t1\tf.py"]).headers_seen) :=
  ⟨header_flush_and_eof_flush.1 _ _ _ _ _ _ _ (by decide) (by decide),
   header_flush_and_eof_flush.2 emptyDb _⟩

/-- A three-field line (in the unbounded splitting of the specification)
with a pending commit always takes the numstat branch: the bounded split
agrees with the unbounded one below five fields. -/
theorem processStripped_numstat_all {s : RunState} {line a d p : String}
    {cur : CommitRec} (hcur : s.current = some cur)
    (hsplit : splitTabAll line = [a, d, p]) :
    processStripped s line =
      { s with
        current := some
          { cur with
            additions := cur.additions + countField a,
            deletions := cur.deletions + countField d,
            files_changed := cur.files_changed + 1 }
        file_rows := s.file_rows ++
          [{ commit_hash := cur.hash, file_path := p,
             additions := countField a, deletions := countField d }] } := by
  have h4 : splitTab4 line = [a, d, p] := by
    rw [splitTab4_eq_of_le5 line (by rw [hsplit]; simp)]
    exact hsplit
  exact processStripped_numstat h4 hcur

/-- Claim C7: every line with exactly three tab-separated fields seen
while a commit is pending is consumed as a numstat line (totals bumped,
one file row appended) and never as a header: the resulting state keeps
headers_seen unchanged, whatever the lengths of the fields, including a
40 character first field. -/
theorem three_field_line_is_numstat (s : RunState) (line a d p : String)
    (cur : CommitRec) (hcur : s.current = some cur)
    (hsplit : splitTabAll line = [a, d, p]) :
    processStripped s line =
      { s with
        current := some
          { cur with
            additions := cur.additions + countField a,
            deletions := cur.deletions + countField d,
            files_changed := cur.files_changed + 1 }
        file_rows := s.file_rows ++
          [{ commit_hash := cur.hash, file_path := p,
             additions := countField a, deletions := countField d }] } :=
  processStripped_numstat_all hcur hsplit

/-- Witness for C7: the first field has exactly 40 characters and the
line is still consumed as a numstat line. -/
theorem three_field_line_is_numstat_witness :
    processStripped
      { current := some
          { hash := hash40, author_name := "A", author_email := "a@x",
            authored_at := "2024", message := "m", additions := 0,
            deletions := 0, files_changed := 0, is_fix := 0, error_tags := none }
        file_rows := []
        headers_seen := 1
        commits_written := 0
        files_written := 0
        db := emptyDb
        journal := [] }
      ("aaaaaaaaaaaaaaaaaaaaaaaaaaaaaaaaaaaaaaaa\tbb\tcc") =
      { current := some
          { hash := hash40, author_name := "A", author_email := "a@x",
            authored_at := "2024", message := "m",
            additions := 0 + countField ("aaaaaaaaaaaaaaaaaaaaaaaaaaaaaaaaaaaaaaaa"),
            deletions := 0 + countField ("bb"), files_changed := 0 + 1,
            is_fix := 0, error_tags := none }
        file_rows := [] ++
          [{ commit_hash := hash40, file_path := "cc",
             additions := countField ("aaaaaaaaaaaaaaaaaaaaaaaaaaaaaaaaaaaaaaaa"),
             deletions := countField ("bb") }]
        headers_seen := 1
        commits_written := 0
        files_written := 0
        db := emptyDb
        journal := [] } :=
  three_field_line_is_numstat _ _ _ _ _ _ rfl (by decide)

/-- Claim C6: a numstat line whose count fields are not pure digit
strings (such as the binary marker) contributes 0 to both totals of the
pending commit, yet files_changed still increases by 1 and a file row
with the coerced zero counts is still buffered. -/
theorem binary_marker_counts (s : RunState) (line a d p : String)
    (cur : CommitRec) (hcur : s.current = some cur)
    (hsplit : splitTabAll line = [a, d, p])
    (hna : isDigits a = false) (hnd : isDigits d = false) :
    processStripped s line =
      { s with
        current := some
          { cur with
            additions := cur.additions, deletions := cur.deletions,
            files_changed := cur.files_changed + 1 }
        file_rows := s.file_rows ++
          [{ commit_hash := cur.hash, file_path := p,
             additions := 0, deletions := 0 }] } := by
  have h := processStripped_numstat_all hcur hsplit
  rw [h]
  have ha : countField a = 0 := by simp [countField, hna]
  have hd : countField d = 0 := by simp [countField, hnd]
  rw [ha, hd]
  simp

/-- Witness for C6: the binary marker line of git numstat output. -/
theorem binary_marker_counts_witness :
    processStripped
      { current := some
          { hash := hash40, author_name := "A", author_email := "a@x",
            authored_at := "2024", message := "m", additions := 7,
            deletions := 5, files_changed := 1, is_fix := 0, error_tags := none }
        file_rows := [{ commit_hash := hash40, file_path := "f.py",
                        additions := 7, deletions := 5 }]
        headers_seen := 1
        commits_written := 0
        files_written := 0
        db := emptyDb
        journal := [] }
      ("-\t-\tlogo.png") =
      { current := some
          { hash := hash40, author_name := "A", author_email := "a@x",
            authored_at := "2024", message := "m", additions := 7,
            deletions := 5, files_changed := 1 + 1, is_fix := 0, error_tags := none }
        file_rows := [{ commit_hash := hash40, file_path := "f.py",
                        additions := 7, deletions := 5 }] ++
          [{ commit_hash := hash40, file_path := "logo.png",
             additions := 0, deletions := 0 }]
        headers_seen := 1
        commits_written := 0
        files_written := 0
        db := emptyDb
        journal := [] } :=
  binary_marker_counts _ _ ("-") ("-") ("logo.png") _ rfl (by decide) (by decide) (by decide)

/-- Counterexample to claim C2 as stated: this line has six tab-separated
fields and a 40 character first field, yet the parser treats it as a
header line (headers_seen increments and the pending subject is the
fifth part with the extra tab absorbed), because the code splits with
maxsplit 4. -/
theorem header_six_fields_cex :
    (splitTabAll
      ("aaaaaaaaaaaaaaaaaaaaaaaaaaaaaaaaaaaaaaaa\tA\ta@x\t2024\tsubject\textra")).length = 6 ∧
    (processStripped (initState emptyDb)
      ("aaaaaaaaaaaaaaaaaaaaaaaaaaaaaaaaaaaaaaaa\tA\ta@x\t2024\tsubject\textra")).headers_seen =
      (initState emptyDb).headers_seen + 1 ∧
    ((processStripped (initState emptyDb)
      ("aaaaaaaaaaaaaaaaaaaaaaaaaaaaaaaaaaaaaaaa\tA\ta@x\t2024\tsubject\textra")).current).map
        (fun c => c.message) = some ("subject\textra") := by
  refine ⟨by decide, by decide, by decide⟩

/-- Claim C2 (amended): the parser treats a line as a header exactly when
it has at least five tab-separated fields and the first field is exactly
40 characters; the bounded split folds every field beyond the fourth tab
into the subject, so more than five fields still make a header. -/
theorem header_iff_ge_five_fields (s : RunState) (line : String) :
    (processStripped s line).headers_seen = s.headers_seen + 1 ↔
      (5 ≤ (splitTabAll line).length ∧
        ((splitTabAll line).headD ("")).length = 40) := by
  have hlen4 := splitTab4_length line
  have hhead := splitTab4_headD line
  rcases hs : splitTab4 line with _ | ⟨x1, _ | ⟨x2, _ | ⟨x3, _ | ⟨x4, _ | ⟨x5, _ | ⟨x6, r⟩⟩⟩⟩⟩⟩
  · rw [hs] at hlen4
    constructor
    · intro h
      exfalso
      have he : processStripped s line = s := by
        unfold processStripped
        rw [hs]
      rw [he] at h
      omega
    · rintro ⟨h5, _⟩
      exfalso
      simp at hlen4
      omega
  · rw [hs] at hlen4
    constructor
    · intro h
      exfalso
      have he : processStripped s line = s := by
        unfold processStripped
        rw [hs]
      rw [he] at h
      omega
    · rintro ⟨h5, _⟩
      exfalso
      simp at hlen4
      omega
  · rw [hs] at hlen4
    constructor
    · intro h
      exfalso
      have he : processStripped s line = s := by
        unfold processStripped
        rw [hs]
      rw [he] at h
      omega
    · rintro ⟨h5, _⟩
      exfalso
      simp at hlen4
      omega
  · constructor
    · intro h
      exfalso
      rcases hc : s.current with _ | cur
      · have he : processStripped s line = s := by
          unfold processStripped
          rw [hs, hc]
        rw [he] at h
        omega
      · have he := processStripped_numstat hs hc
        rw [he] at h
        simp at h
    · rintro ⟨h5, _⟩
      exfalso
      rw [hs] at hlen4
      simp at hlen4
      omega
  · rw [hs] at hlen4
    constructor
    · intro h
      exfalso
      have he : processStripped s line = s := by
        unfold processStripped
        rw [hs]
      rw [he] at h
      omega
    · rintro ⟨h5, _⟩
      exfalso
      simp at hlen4
      omega
  · by_cases h40 : x1.length = 40
    · have he := @processStripped_header s line x1 x2 x3 x4 x5 hs h40
      constructor
      · intro _
        have h5 : 5 ≤ (splitTabAll line).length := by
          rw [hs] at hlen4
          simp at hlen4
          omega
        refine ⟨h5, ?_⟩
        have hx1 : (splitTabAll line).headD ("") = x1 := by
          rw [← hhead, hs]
          simp
        rw [hx1]
        exact h40
      · intro _
        rw [he]
        simp [flush_headers]
    · constructor
      · intro h
        exfalso
        have he : processStripped s line = s := by
          unfold processStripped
          rw [hs]
          simp [h40]
        rw [he] at h
        omega
      · rintro ⟨_, hh⟩
        exfalso
        have hx1 : (splitTabAll line).headD ("") = x1 := by
          rw [← hhead, hs]
          simp
        rw [hx1] at hh
        exact h40 hh
  · exfalso
    rw [hs] at hlen4
    simp at hlen4
    omega

/-! ## The statement journal and the single end-of-run commit -/

theorem applyOps_append (db : Db) (l1 l2 : List DbOp) :
    applyOps db (l1 ++ l2) = applyOps (applyOps db l1) l2 := by
  simp [applyOps, List.foldl_append]

/-- Consistency of the connection view with the journal. -/
def JInv (db0 : Db) (s : RunState) : Prop := s.db = applyOps db0 s.journal

theorem jinv_flush {db0 : Db} {s : RunState} (h : JInv db0 s) : JInv db0 (flush s) := by
  rcases hc : s.current with _ | cur
  · rw [flush_none hc]
    exact h
  · rw [flush_some hc]
    show applyOps s.db _ = applyOps db0 (s.journal ++ _)
    rw [applyOps_append, ← h]

theorem jinv_processStripped {db0 : Db} {s : RunState} (line : String)
    (h : JInv db0 s) : JInv db0 (processStripped s line) := by
  rcases processStripped_cases s line with he | ⟨hsh, an, ae, at_, sb, hs5, hl40⟩ |
    ⟨a, d, p, cur, hs3, hcur⟩
  · rw [he]
    exact h
  · rw [processStripped_header hs5 hl40]
    exact jinv_flush h
  · rw [processStripped_numstat hs3 hcur]
    exact h

theorem jinv_processRaw {db0 : Db} {s : RunState} (raw : String)
    (h : JInv db0 s) : JInv db0 (processRaw s raw) := by
  show JInv db0
    (if rstripNewlines raw = "" then s else processStripped s (rstripNewlines raw))
  by_cases he : rstripNewlines raw = ""
  · rw [if_pos he]
    exact h
  · rw [if_neg he]
    exact jinv_processStripped _ h

theorem jinv_foldl : ∀ (lines : List String) (db0 : Db) (s : RunState),
    JInv db0 s → JInv db0 (lines.foldl processRaw s)
  | [], _, _, h => h
  | l :: ls, db0, _, h => jinv_foldl ls db0 _ (jinv_processRaw l h)

theorem jinv_run (db : Db) (rawLines : List String) :
    (runIngest db rawLines).db = applyOps db (runIngest db rawLines).journal :=
  jinv_flush (jinv_foldl rawLines db (initState db) rfl)

theorem flushOps_no_commit (row : CommitRec) (rows : List FileRow) :
    DbOp.commitTxn ∉ flushOps row rows := by
  simp [flushOps]

/-- The journal never contains a transaction commit while the loop runs. -/
def NCInv (s : RunState) : Prop := DbOp.commitTxn ∉ s.journal

theorem ncinv_flush {s : RunState} (h : NCInv s) : NCInv (flush s) := by
  rcases hc : s.current with _ | cur
  · rw [flush_none hc]
    exact h
  · rw [flush_some hc]
    show DbOp.commitTxn ∉ s.journal ++ _
    rw [List.mem_append]
    rintro (h1 | h1)
    · exact h h1
    · exact flushOps_no_commit _ _ h1

theorem ncinv_processStripped {s : RunState} (line : String)
    (h : NCInv s) : NCInv (processStripped s line) := by
  rcases processStripped_cases s line with he | ⟨hsh, an, ae, at_, sb, hs5, hl40⟩ |
    ⟨a, d, p, cur, hs3, hcur⟩
  · rw [he]
    exact h
  · rw [processStripped_header hs5 hl40]
    exact ncinv_flush h
  · rw [processStripped_numstat hs3 hcur]
    exact h

theorem ncinv_processRaw {s : RunState} (raw : String)
    (h : NCInv s) : NCInv (processRaw s raw) := by
  show NCInv
    (if rstripNewlines raw = "" then s else processStripped s (rstripNewlines raw))
  by_cases he : rstripNewlines raw = ""
  · rw [if_pos he]
    exact h
  · rw [if_neg he]
    exact ncinv_processStripped _ h

theorem ncinv_foldl : ∀ (lines : List String) (s : RunState),
    NCInv s → NCInv (lines.foldl processRaw s)
  | [], _, h => h
  | l :: ls, _, h => ncinv_foldl ls _ (ncinv_processRaw l h)

theorem run_journal_no_commit (db : Db) (rawLines : List String) :
    DbOp.commitTxn ∉ (runIngest db rawLines).journal :=
  ncinv_flush (ncinv_foldl rawLines (initState db) (by simp [NCInv, initState]))

theorem durableAux_no_commit : ∀ (ops : List DbOp) (d c : Db),
    DbOp.commitTxn ∉ ops → durableAux d c ops = d
  | [], _, _, _ => rfl
  | op :: rest, d, c, h => by
    have hrest : DbOp.commitTxn ∉ rest := fun hm => h (List.mem_cons_of_mem _ hm)
    cases op with
    | commitTxn => exact absurd (List.mem_cons_self _ _) h
    | upsertCommit row => exact durableAux_no_commit rest d _ hrest
    | deleteFiles hh => exact durableAux_no_commit rest d _ hrest
    | insertFile r => exact durableAux_no_commit rest d _ hrest

theorem durableAux_ops_commit : ∀ (ops : List DbOp) (d c : Db),
    DbOp.commitTxn ∉ ops →
    durableAux d c (ops ++ [DbOp.commitTxn]) = applyOps c ops
  | [], _, _, _ => rfl
  | op :: rest, d, c, h => by
    have hrest : DbOp.commitTxn ∉ rest := fun hm => h (List.mem_cons_of_mem _ hm)
    cases op with
    | commitTxn => exact absurd (List.mem_cons_self _ _) h
    | upsertCommit row => exact durableAux_ops_commit rest d _ hrest
    | deleteFiles hh => exact durableAux_ops_commit rest d _ hrest
    | insertFile r => exact durableAux_ops_commit rest d _ hrest

/-- Claim C3 (amended): one run executes all its flush statements inside
a single transaction whose only commit is the final statement of the
journal; a failure at any point before that commit (any strict prefix of
the journal) leaves the durable store exactly as it was before the run,
so an interrupted flush leaves that commit and every previously flushed
commit of the same run unpersisted, while data of earlier runs (the
initial store) is untouched; when the run completes, the committed store
is the connection view of the run. -/
theorem run_single_transaction (db : Db) (rawLines : List String) :
    ((runJournal db rawLines).count DbOp.commitTxn = 1 ∧
      (runJournal db rawLines).getLast? = some DbOp.commitTxn) ∧
    (∀ k, k < (runJournal db rawLines).length →
      durableDb db ((runJournal db rawLines).take k) = db) ∧
    durableDb db (runJournal db rawLines) = (runIngest db rawLines).db := by
  have hnc := run_journal_no_commit db rawLines
  refine ⟨⟨?_, ?_⟩, ?_, ?_⟩
  · unfold runJournal
    rw [List.count_append]
    rw [List.count_eq_zero.mpr hnc]
    rfl
  · unfold runJournal
    exact List.getLast?_concat _
  · intro k hk
    unfold runJournal at hk ⊢
    rw [List.take_append_of_le_length (by simp at hk; omega)]
    exact durableAux_no_commit _ db db
      (fun hm => hnc (List.take_subset k _ hm))
  · unfold runJournal durableDb
    rw [durableAux_ops_commit _ db db hnc]
    exact (jinv_run db rawLines).symm

/-- Witness for C3: the empty stream, whose journal is just the final
commit; failing before it leaves the store untouched. -/
theorem run_single_transaction_witness :
    durableDb emptyDb ((runJournal emptyDb []).take 0) = emptyDb ∧
    (runJournal emptyDb []).count DbOp.commitTxn = 1 :=
  ⟨(run_single_transaction emptyDb []).2.1 0 (by decide),
   (run_single_transaction emptyDb []).1.1⟩

/-- Counterexample to claim C3 as stated: a stream with two commits; the
journal has five statements (two per flush and the final commit).  A
failure after the third statement means the first flush has fully
executed, yet the first commit hash is not durably persisted (nothing
was committed); only completing the run makes it durable.  So a prior
successful flush of the same run is not durable at a later failure. -/
theorem per_flush_durability_cex :
    (runJournal emptyDb
      ["aaaaaaaaaaaaaaaaaaaaaaaaaaaaaaaaaaaaaaaa\tA\ta@x\t2024\tm1",
       "bbbbbbbbbbbbbbbbbbbbbbbbbbbbbbbbbbbbbbbb\tB\tb@x\t2025\tm2"]).length = 5 ∧
    (durableDb emptyDb ((runJournal emptyDb
      ["aaaaaaaaaaaaaaaaaaaaaaaaaaaaaaaaaaaaaaaa\tA\ta@x\t2024\tm1",
       "bbbbbbbbbbbbbbbbbbbbbbbbbbbbbbbbbbbbbbbb\tB\tb@x\t2025\tm2"]).take 3)).commits
      ("aaaaaaaaaaaaaaaaaaaaaaaaaaaaaaaaaaaaaaaa") = none ∧
    ((durableDb emptyDb (runJournal emptyDb
      ["aaaaaaaaaaaaaaaaaaaaaaaaaaaaaaaaaaaaaaaa\tA\ta@x\t2024\tm1",
       "bbbbbbbbbbbbbbbbbbbbbbbbbbbbbbbbbbbbbbbb\tB\tb@x\t2025\tm2"])).commits
      ("aaaaaaaaaaaaaaaaaaaaaaaaaaaaaaaaaaaaaaaa")).isSome = true := by
  refine ⟨by decide, by decide, by decide⟩

/-! ## Last-write characterization of the statement semantics -/

/-- The write an individual statement performs on the commits row of a
given hash, if any. -/
def commitWriteOf (op : DbOp) (h : String) : Option (Option CommitRec) :=
  match op with
  | .upsertCommit row => if h = row.hash then some (some row) else none
  | _ => none

/-- The write an individual statement performs on the file row of a
given (hash, path) key, if any. -/
def fileWriteOf (op : DbOp) (k : String × String) : Option (Option (Nat × Nat)) :=
  match op with
  | .deleteFiles hh => if k.1 = hh then some none else none
  | .insertFile r =>
    if k = (r.commit_hash, r.file_path) then some (some (r.additions, r.deletions))
    else none
  | _ => none

/-- The last write of a statement list under a per-statement write
function (later statements win). -/
def lastWrite {α : Type} (w : DbOp → Option α) : List DbOp → Option α
  | [] => none
  | op :: rest =>
    match lastWrite w rest with
    | some v => some v
    | none => w op

theorem lastWrite_cons_none {α : Type} {w : DbOp → Option α} {op : DbOp}
    {rest : List DbOp} (h : lastWrite w rest = none) :
    lastWrite w (op :: rest) = w op := by
  show (match lastWrite w rest with | some v => some v | none => w op) = w op
  rw [h]

theorem lastWrite_cons_some {α : Type} {w : DbOp → Option α} {op : DbOp}
    {rest : List DbOp} {v : α} (h : lastWrite w rest = some v) :
    lastWrite w (op :: rest) = some v := by
  show (match lastWrite w rest with | some v => some v | none => w op) = some v
  rw [h]

theorem applyOps_commits_char : ∀ (ops : List DbOp) (db : Db) (h : String),
    (applyOps db ops).commits h =
      (lastWrite (fun op => commitWriteOf op h) ops).getD (db.commits h)
  | [], _, _ => rfl
  | op :: rest, db, h => by
    show (applyOps (applyOp db op) rest).commits h = _
    rw [applyOps_commits_char rest]
    rcases hw : lastWrite (fun o => commitWriteOf o h) rest with _ | v
    · rw [lastWrite_cons_none hw]
      cases op with
      | upsertCommit row =>
        simp only [applyOp, upsertCommitRow, commitWriteOf]
        split_ifs <;> simp
      | deleteFiles hh => simp [applyOp, deleteFilesForCommit, commitWriteOf]
      | insertFile r => simp [applyOp, insertFileRowDb, commitWriteOf]
      | commitTxn => simp [applyOp, commitWriteOf]
    · rw [lastWrite_cons_some hw]
      simp

theorem applyOps_files_char : ∀ (ops : List DbOp) (db : Db) (k : String × String),
    (applyOps db ops).commit_files k =
      (lastWrite (fun op => fileWriteOf op k) ops).getD (db.commit_files k)
  | [], _, _ => rfl
  | op :: rest, db, k => by
    show (applyOps (applyOp db op) rest).commit_files k = _
    rw [applyOps_files_char rest]
    rcases hw : lastWrite (fun o => fileWriteOf o k) rest with _ | v
    · rw [lastWrite_cons_none hw]
      cases op with
      | upsertCommit row => simp [applyOp, upsertCommitRow, fileWriteOf]
      | deleteFiles hh =>
        simp only [applyOp, deleteFilesForCommit, fileWriteOf]
        split_ifs <;> simp
      | insertFile r =>
        simp only [applyOp, insertFileRowDb, fileWriteOf]
        split_ifs <;> simp
      | commitTxn => simp [applyOp, fileWriteOf]
    · rw [lastWrite_cons_some hw]
      simp

theorem db_ext {d1 d2 : Db} (h1 : d1.commits = d2.commits)
    (h2 : d1.commit_files = d2.commit_files) : d1 = d2 := by
  cases d1
  cases d2
  cases h1
  cases h2
  rfl

/-- Every statement writes a value that does not depend on the current
store, so replaying a statement list a second time changes nothing. -/
theorem applyOps_idem (db : Db) (ops : List DbOp) :
    applyOps (applyOps db ops) ops = applyOps db ops := by
  refine db_ext ?_ ?_
  · funext h
    rw [applyOps_commits_char, applyOps_commits_char]
    rcases hw : lastWrite (fun o => commitWriteOf o h) ops with _ | v
    · simp [applyOps_commits_char, hw]
    · simp
  · funext k
    rw [applyOps_files_char, applyOps_files_char]
    rcases hw : lastWrite (fun o => fileWriteOf o k) ops with _ | v
    · simp [applyOps_files_char, hw]
    · simp

/-! ## The journal depends only on the line stream, not on the store -/

theorem flush_parser_eq {s t : RunState} (h1 : s.current = t.current)
    (h2 : s.file_rows = t.file_rows) (h3 : s.journal = t.journal) :
    (flush s).current = (flush t).current ∧
    (flush s).file_rows = (flush t).file_rows ∧
    (flush s).journal = (flush t).journal := by
  rcases hc : s.current with _ | cur
  · rw [flush_none hc, flush_none (h1 ▸ hc)]
    exact ⟨h1, h2, h3⟩
  · rw [flush_some hc, flush_some (h1 ▸ hc)]
    refine ⟨rfl, rfl, ?_⟩
    rw [h2, h3]

theorem processStripped_parser_eq (line : String) {s t : RunState}
    (h1 : s.current = t.current) (h2 : s.file_rows = t.file_rows)
    (h3 : s.journal = t.journal) :
    (processStripped s line).current = (processStripped t line).current ∧
    (processStripped s line).file_rows = (processStripped t line).file_rows ∧
    (processStripped s line).journal = (processStripped t line).journal := by
  rcases hs : splitTab4 line with _ | ⟨x1, _ | ⟨x2, _ | ⟨x3, _ | ⟨x4, _ | ⟨x5, _ | ⟨x6, r⟩⟩⟩⟩⟩⟩
  · have hes : processStripped s line = s := by unfold processStripped; rw [hs]
    have het : processStripped t line = t := by unfold processStripped; rw [hs]
    rw [hes, het]
    exact ⟨h1, h2, h3⟩
  · have hes : processStripped s line = s := by unfold processStripped; rw [hs]
    have het : processStripped t line = t := by unfold processStripped; rw [hs]
    rw [hes, het]
    exact ⟨h1, h2, h3⟩
  · have hes : processStripped s line = s := by unfold processStripped; rw [hs]
    have het : processStripped t line = t := by unfold processStripped; rw [hs]
    rw [hes, het]
    exact ⟨h1, h2, h3⟩
  · rcases hc : s.current with _ | cur
    · have hes : processStripped s line = s := by unfold processStripped; rw [hs, hc]
      have het : processStripped t line = t := by
        unfold processStripped
        rw [hs, ← h1, hc]
      rw [hes, het]
      exact ⟨h1, h2, h3⟩
    · rw [processStripped_numstat hs hc, processStripped_numstat hs (h1 ▸ hc)]
      refine ⟨rfl, ?_, h3⟩
      rw [h2]
  · have hes : processStripped s line = s := by unfold processStripped; rw [hs]
    have het : processStripped t line = t := by unfold processStripped; rw [hs]
    rw [hes, het]
    exact ⟨h1, h2, h3⟩
  · by_cases h40 : x1.length = 40
    · rw [@processStripped_header s line x1 x2 x3 x4 x5 hs h40,
        @processStripped_header t line x1 x2 x3 x4 x5 hs h40]
      obtain ⟨f1, f2, f3⟩ := flush_parser_eq h1 h2 h3
      exact ⟨rfl, f2, f3⟩
    · have hes : processStripped s line = s := by
        unfold processStripped
        rw [hs]
        simp [h40]
      have het : processStripped t line = t := by
        unfold processStripped
        rw [hs]
        simp [h40]
      rw [hes, het]
      exact ⟨h1, h2, h3⟩
  · have hes : processStripped s line = s := by unfold processStripped; rw [hs]
    have het : processStripped t line = t := by unfold processStripped; rw [hs]
    rw [hes, het]
    exact ⟨h1, h2, h3⟩

theorem processRaw_eq (s : RunState) (raw : String) :
    processRaw s raw =
      if rstripNewlines raw = "" then s
      else processStripped s (rstripNewlines raw) := rfl

theorem processRaw_parser_eq (raw : String) {s t : RunState}
    (h1 : s.current = t.current) (h2 : s.file_rows = t.file_rows)
    (h3 : s.journal = t.journal) :
    (processRaw s raw).current = (processRaw t raw).current ∧
    (processRaw s raw).file_rows = (processRaw t raw).file_rows ∧
    (processRaw s raw).journal = (processRaw t raw).journal := by
  rw [processRaw_eq s raw, processRaw_eq t raw]
  by_cases he : rstripNewlines raw = ""
  · simp only [if_pos he]
    exact ⟨h1, h2, h3⟩
  · simp only [if_neg he]
    exact processStripped_parser_eq _ h1 h2 h3

theorem foldl_parser_eq : ∀ (lines : List String) (s t : RunState),
    s.current = t.current → s.file_rows = t.file_rows → s.journal = t.journal →
    ((lines.foldl processRaw s).current = (lines.foldl processRaw t).current ∧
     (lines.foldl processRaw s).file_rows = (lines.foldl processRaw t).file_rows ∧
     (lines.foldl processRaw s).journal = (lines.foldl processRaw t).journal)
  | [], _, _, h1, h2, h3 => ⟨h1, h2, h3⟩
  | l :: ls, s, t, h1, h2, h3 => by
    obtain ⟨p1, p2, p3⟩ := processRaw_parser_eq l h1 h2 h3
    exact foldl_parser_eq ls _ _ p1 p2 p3

theorem run_journal_db_independent (rawLines : List String) (db1 db2 : Db) :
    (runIngest db1 rawLines).journal = (runIngest db2 rawLines).journal := by
  obtain ⟨p1, p2, p3⟩ :=
    foldl_parser_eq rawLines (initState db1) (initState db2) rfl rfl rfl
  exact (flush_parser_eq p1 p2 p3).2.2

/-- Claim C4: ingestion is idempotent at the level of store contents: a
second run over the same line stream leaves both tables exactly as the
first run left them; and re-ingesting a hash whose file set shrank from
two paths to one leaves exactly the single new file row for that hash,
the stale row having been deleted before the new inserts. -/
theorem ingest_idempotent :
    (∀ (db : Db) (rawLines : List String),
        (runIngest (runIngest db rawLines).db rawLines).db = (runIngest db rawLines).db) ∧
    ((runIngest (runIngest emptyDb
        ["aaaaaaaaaaaaaaaaaaaaaaaaaaaaaaaaaaaaaaaa\tA\ta@x\t2024\tm",
         "1\t1\ta.txt", "2\t2\tb.txt"]).db
        ["aaaaaaaaaaaaaaaaaaaaaaaaaaaaaaaaaaaaaaaa\tA\ta@x\t2024\tm",
         "5\t6\ta.txt"]).db.commit_files (hash40, "a.txt") = some (5, 6) ∧
     (runIngest (runIngest emptyDb
        ["aaaaaaaaaaaaaaaaaaaaaaaaaaaaaaaaaaaaaaaa\tA\ta@x\t2024\tm",
         "1\t1\ta.txt", "2\t2\tb.txt"]).db
        ["aaaaaaaaaaaaaaaaaaaaaaaaaaaaaaaaaaaaaaaa\tA\ta@x\t2024\tm",
         "5\t6\ta.txt"]).db.commit_files (hash40, "b.txt") = none ∧
     (∀ p, ((runIngest (runIngest emptyDb
        ["aaaaaaaaaaaaaaaaaaaaaaaaaaaaaaaaaaaaaaaa\tA\ta@x\t2024\tm",
         "1\t1\ta.txt", "2\t2\tb.txt"]).db
        ["aaaaaaaaaaaaaaaaaaaaaaaaaaaaaaaaaaaaaaaa\tA\ta@x\t2024\tm",
         "5\t6\ta.txt"]).db.commit_files (hash40, p)).isSome = true ↔ p = "a.txt")) := by
  constructor
  · intro db rawLines
    have h1 := jinv_run db rawLines
    have h2 := jinv_run (runIngest db rawLines).db rawLines
    have hJ := run_journal_db_independent rawLines (runIngest db rawLines).db db
    rw [h2, hJ, h1]
    exact applyOps_idem db _
  · have hfun : (runIngest (runIngest emptyDb
        ["aaaaaaaaaaaaaaaaaaaaaaaaaaaaaaaaaaaaaaaa\tA\ta@x\t2024\tm",
         "1\t1\ta.txt", "2\t2\tb.txt"]).db
        ["aaaaaaaaaaaaaaaaaaaaaaaaaaaaaaaaaaaaaaaa\tA\ta@x\t2024\tm",
         "5\t6\ta.txt"]).db.commit_files =
      (fun k => if k = (hash40, "a.txt") then some (5, 6)
        else if k.1 = hash40 then none
        else (runIngest emptyDb
          ["aaaaaaaaaaaaaaaaaaaaaaaaaaaaaaaaaaaaaaaa\tA\ta@x\t2024\tm",
           "1\t1\ta.txt", "2\t2\tb.txt"]).db.commit_files k) := rfl
    refine ⟨?_, ?_, ?_⟩
    · rw [hfun]
      simp
    · rw [hfun]
      simp [hash40]
    · intro p
      rw [hfun]
      by_cases hp : p = "a.txt"
      · simp [hp]
      · simp [hp, hash40]

/-- Claim C5: for every subject string the classifier computes exactly
the set of distinct lower-cased keywords of the fixed vocabulary that
occur as case-insensitive whole words in the subject (a keyword inside a
longer word, as fix inside prefix, does not match); is_fix is 1 exactly
when that set is nonempty, and error_tags is the sorted comma join of
the set, NULL when the set is empty. -/
theorem classifier_whole_word (msg : String) :
    (∀ x, x ∈ tagList msg ↔ (x ∈ CANON ∧ occursWholeWord x msg = true)) ∧
    sortStr (tagList msg) = specTagList msg ∧
    (isFixVal msg = 1 ↔ specTagList msg ≠ []) ∧
    errorTags msg =
      (if specTagList msg = [] then none
       else some (String.intercalate (",") (specTagList msg))) := by
  refine ⟨fun x => tagList_mem_iff msg x, sorted_tagList_eq_spec msg, ?_, ?_⟩
  · unfold isFixVal
    by_cases h : tagList msg = []
    · rw [if_pos h]
      simp [(tagList_eq_nil_iff_spec msg).mp h]
    · rw [if_neg h]
      have h2 : specTagList msg ≠ [] := fun hh => h ((tagList_eq_nil_iff_spec msg).mpr hh)
      simp [h2]
  · unfold errorTags
    by_cases h : tagList msg = []
    · rw [if_pos h, if_pos ((tagList_eq_nil_iff_spec msg).mp h)]
    · have h2 : specTagList msg ≠ [] := fun hh => h ((tagList_eq_nil_iff_spec msg).mpr hh)
      rw [if_neg h, if_neg h2, sorted_tagList_eq_spec msg]

/-- Counterexample to claim C9 as stated: an unrecoverable storage error
surfaces as a generic exception, which main catches and prints before
returning normally, so the process exits 0; the missing DB_URL
configuration error likewise exits 0. -/
theorem fatal_exit_zero_cex :
    mainExitCode (RunOutcome.otherError ("storage connection lost")) = 0 ∧
    mainExitCode outcomeMissingDbUrl = 0 :=
  ⟨rfl, rfl⟩

/-- Claim C9 (amended): only the SystemExit paths (such as a target path
that is not a git repository) exit non-zero; ValueError (missing DB_URL)
and every other exception, storage errors included, are caught by main,
printed, and the process exits 0. -/
theorem exit_codes_amended :
    mainExitCode (outcomeNotARepo ("/tmp/x")) = 1 ∧
    (∀ m, mainExitCode (RunOutcome.valueError m) = 0 ∧
      mainExitCode (RunOutcome.otherError m) = 0) ∧
    (∀ o, mainExitCode o ≠ 0 ↔ ∃ m, o = RunOutcome.systemExit m) := by
  refine ⟨rfl, fun m => ⟨rfl, rfl⟩, ?_⟩
  intro o
  cases o <;> simp [mainExitCode]

/-- Claim C10: files_changed counts consumed numstat lines, not distinct
paths: two numstat lines with the same path bump files_changed twice and
buffer two in-memory rows; yet after the flush the commit_files table,
unique on (commit_hash, file_path) with on-duplicate-key update, retains
a single row for that path (the later counts win), so the persisted
files_changed (2) exceeds the number of persisted file rows (1). -/
theorem files_changed_counts_lines :
    (∀ (s : RunState) (l1 l2 a1 d1 a2 d2 p : String) (cur : CommitRec),
      s.current = some cur →
      splitTabAll l1 = [a1, d1, p] → splitTabAll l2 = [a2, d2, p] →
      processStripped (processStripped s l1) l2 =
        { s with
          current := some
            { cur with
              additions := cur.additions + countField a1 + countField a2,
              deletions := cur.deletions + countField d1 + countField d2,
              files_changed := cur.files_changed + 1 + 1 }
          file_rows := (s.file_rows ++
            [{ commit_hash := cur.hash, file_path := p,
               additions := countField a1, deletions := countField d1 }]) ++
            [{ commit_hash := cur.hash, file_path := p,
               additions := countField a2, deletions := countField d2 }] }) ∧
    (((runIngest emptyDb
        ["aaaaaaaaaaaaaaaaaaaaaaaaaaaaaaaaaaaaaaaa\tA\ta@x\t2024\tm",
         "1\t2\ta.txt", "3\t4\ta.txt"]).db.commits hash40).map
        (fun r => r.files_changed) = some 2 ∧
      (runIngest emptyDb
        ["aaaaaaaaaaaaaaaaaaaaaaaaaaaaaaaaaaaaaaaa\tA\ta@x\t2024\tm",
         "1\t2\ta.txt", "3\t4\ta.txt"]).db.commit_files (hash40, "a.txt") =
        some (3, 4) ∧
      (∀ q, ((runIngest emptyDb
        ["aaaaaaaaaaaaaaaaaaaaaaaaaaaaaaaaaaaaaaaa\tA\ta@x\t2024\tm",
         "1\t2\ta.txt", "3\t4\ta.txt"]).db.commit_files (hash40, q)).isSome = true ↔
        q = "a.txt")) := by
  constructor
  · intro s l1 l2 a1 d1 a2 d2 p cur hcur h1 h2
    rw [processStripped_numstat_all hcur h1]
    rw [processStripped_numstat_all rfl h2]
  · have hfun : (runIngest emptyDb
        ["aaaaaaaaaaaaaaaaaaaaaaaaaaaaaaaaaaaaaaaa\tA\ta@x\t2024\tm",
         "1\t2\ta.txt", "3\t4\ta.txt"]).db.commit_files =
      (fun k => if k = (hash40, "a.txt") then some (3, 4)
        else if k = (hash40, "a.txt") then some (1, 2)
        else if k.1 = hash40 then none
        else emptyDb.commit_files k) := rfl
    refine ⟨by decide, ?_, ?_⟩
    · rw [hfun]
      simp
    · intro q
      rw [hfun]
      by_cases hq : q = "a.txt"
      · simp [hq]
      · simp [hq, hash40, emptyDb]

/-- Witness for C10: two concrete duplicate-path numstat lines processed
from a pending state, and the persisted outcome of the same stream. -/
theorem files_changed_counts_lines_witness :
    processStripped (processStripped
      { current := some
          { hash := hash40, author_name := "A", author_email := "a@x",
            authored_at := "2024", message := "m", additions := 0,
            deletions := 0, files_changed := 0, is_fix := 0, error_tags := none }
        file_rows := []
        headers_seen := 1
        commits_written := 0
        files_written := 0
        db := emptyDb
        journal := [] } ("1\t2\ta.txt")) ("3\t4\ta.txt") =
      { current := some
          { hash := hash40, author_name := "A", author_email := "a@x",
            authored_at := "2024", message := "m",
            additions := 0 + countField ("1") + countField ("3"),
            deletions := 0 + countField ("2") + countField ("4"),
            files_changed := 0 + 1 + 1, is_fix := 0, error_tags := none }
        file_rows := ([] ++
          [{ commit_hash := hash40, file_path := "a.txt",
             additions := countField ("1"), deletions := countField ("2") }]) ++
          [{ commit_hash := hash40, file_path := "a.txt",
             additions := countField ("3"), deletions := countField ("4") }]
        headers_seen := 1
        commits_written := 0
        files_written := 0
        db := emptyDb
        journal := [] } :=
  files_changed_counts_lines.1 _ _ _ ("1") ("2") ("3") ("4") ("a.txt") _
    rfl (by decide) (by decide)
